import Mathlib

/-!
Shallow embedding of the admission/eviction engine of `src/cache.rs`
(`rocket-file-cache`).  Keys (`PathBuf`) are modelled as natural numbers,
`HashMap`s as association lists with distinct keys, `usize` as `Nat`
(arithmetic in the source stays far below `usize::MAX`; the one `isize`
cast is modelled exactly with `Int`), and the filesystem as a per-call
snapshot `Fs` mapping a path to its current metadata/content.  A path's
`canOpen` field lets `fs::metadata` succeed while `File::open`
(`NamedFile::open` / `InMemoryFile::open`) fails, as happens on a real
filesystem (permissions, races); `to_str` failures (non-UTF-8 paths) are
not modelled, so the `InvalidPath` early exits for unprintable paths do
not arise.  The `.unwrap()` calls in `make_room_for_new_file`'s removal
loop are modelled by a `panic` outcome.  `priority_function` is the
pluggable scoring function (its default lives in the separate
`priority_function.rs`, which is not part of the sources); it is carried
as a plain function parameter.
-/

/-- A filesystem path, used as the cache key (`PathBuf`). -/
abbrev PathBuf := Nat

/-- Snapshot of one filesystem item: its metadata length, whether it is a
regular file, whether opening it for reading succeeds, and an abstract
token for its byte content. -/
structure FsEntry where
  size : Nat
  isFile : Bool
  canOpen : Bool
  bytes : Nat
deriving DecidableEq, Repr

/-- A filesystem snapshot: `none` means `fs::metadata` fails for the path. -/
def Fs := PathBuf → Option FsEntry

/-- The `InMemoryFile` value type: content read from the filesystem. -/
structure InMemoryFile where
  size : Nat
  bytes : Nat
deriving DecidableEq, Repr

/-- The `FileStats` struct of `cache.rs`. -/
structure FileStats where
  size : Nat
  access_count : Nat
  priority : Nat
deriving DecidableEq, Repr

/-- The `CacheInvalidationError` enum of `cache.rs`. -/
inductive CacheError where
  | NoMoreFilesToRemove
  | NewPriorityIsNotHighEnough
  | NewFileSmallerThanMin
  | NewFileLargerThanMax
  | NewFileLargerThanCache
  | InvalidMetadata
  | InvalidPath
deriving DecidableEq, Repr

/-- The `ResponderFile` handle returned to callers: either cached bytes
(`CachedFile { path, file }`) or a passthrough `NamedFile`. -/
inductive ResponderFile where
  | cached (p : PathBuf) (f : InMemoryFile)
  | fileSystem (p : PathBuf)
deriving DecidableEq, Repr

/-- Association-list lookup, modelling `HashMap::get`. -/
def findE {α : Type} : List (PathBuf × α) → PathBuf → Option α
  | [], _ => none
  | (k, v) :: rest, q => if k = q then some v else findE rest q

/-- Association-list removal, modelling `HashMap::remove`. -/
def eraseE {α : Type} (m : List (PathBuf × α)) (q : PathBuf) : List (PathBuf × α) :=
  m.filter (fun e => !(e.1 == q))

/-- Association-list insertion, modelling `HashMap::insert` /
`entry(..).or_insert(..)` followed by a write. -/
def insertE {α : Type} (m : List (PathBuf × α)) (q : PathBuf) (v : α) : List (PathBuf × α) :=
  (q, v) :: eraseE m q

/-- The keys of an association list. -/
def keysOf {α : Type} (m : List (PathBuf × α)) : List PathBuf :=
  m.map Prod.fst

/-- The `Cache` aggregate of `cache.rs`. -/
structure Cache where
  size_limit : Nat
  min_file_size : Nat
  max_file_size : Nat
  priority_function : Nat → Nat → Nat
  file_map : List (PathBuf × InMemoryFile)
  file_stats_map : List (PathBuf × FileStats)
  access_count_map : List (PathBuf × Nat)

/-- Value of `usize::MAX`, the default `max_file_size`. -/
def usizeMax : Nat := 2 ^ 64 - 1

/-- `Cache::new`: empty maps, `min_file_size = 0`, `max_file_size =
usize::MAX`.  The priority function is passed explicitly because the
default one is defined outside the given sources. -/
def Cache.new (size_limit : Nat) (pf : Nat → Nat → Nat) : Cache :=
  { size_limit := size_limit
    min_file_size := 0
    max_file_size := usizeMax
    priority_function := pf
    file_map := []
    file_stats_map := []
    access_count_map := [] }

/-- `Cache::used_bytes`: fold the sizes of all entries of the file map. -/
def usedBytes (c : Cache) : Nat :=
  c.file_map.foldl (fun size x => size + x.2.size) 0

/-- `Cache::contains_key`. -/
def containsKey (c : Cache) (p : PathBuf) : Bool :=
  (findE c.file_map p).isSome

/-- `Cache::get_file_size_from_metadata`. -/
def getFileSizeFromMetadata (fsys : Fs) (p : PathBuf) : Except CacheError Nat :=
  match fsys p with
  | some e => .ok e.size
  | none => .error .InvalidMetadata

/-- `InMemoryFile::open`: succeeds only when the item exists and can be
opened, yielding content whose length is the item's current size. -/
def openInMemory (fsys : Fs) (p : PathBuf) : Option InMemoryFile :=
  match fsys p with
  | some e => if e.canOpen then some ⟨e.size, e.bytes⟩ else none
  | none => none

/-- `NamedFile::open`: succeeds when the item exists and can be opened. -/
def openNamedFile (fsys : Fs) (p : PathBuf) : Option Unit :=
  match fsys p with
  | some e => if e.canOpen then some () else none
  | none => none

/-- `Cache::increment_access_count`: `entry(..).or_insert(0)` then `+= 1`. -/
def incrementAccessCount (c : Cache) (p : PathBuf) : Cache :=
  { c with access_count_map :=
      insertE c.access_count_map p ((findE c.access_count_map p).getD 0 + 1) }

/-- `Cache::update_stats`: size from the file map (or metadata with
`unwrap_or(0)`), `or_insert` a fresh record, then overwrite `size` and
recompute `priority` from the record's own (possibly stale)
`access_count`. -/
def updateStats (fsys : Fs) (c : Cache) (p : PathBuf) : Cache :=
  let size : Nat :=
    match findE c.file_map p with
    | some f => f.size
    | none => ((getFileSizeFromMetadata fsys p).toOption).getD 0
  let access : Nat := (findE c.access_count_map p).getD 1
  let st0 : FileStats := (findE c.file_stats_map p).getD ⟨size, access, 0⟩
  let st : FileStats :=
    { st0 with size := size, priority := c.priority_function st0.access_count size }
  { c with file_stats_map := insertE c.file_stats_map p st }

/-- The stats record `sorted_priorities` associates to a cached key:
the stats table's record, or the all-zero default (`unwrap_or`). -/
def statsOrDefault (c : Cache) (p : PathBuf) : FileStats :=
  (findE c.file_stats_map p).getD ⟨0, 0, 0⟩

/-- The comparator of `sorted_priorities`: descending by priority score. -/
def priorityDesc (l r : PathBuf × FileStats) : Prop :=
  r.2.priority ≤ l.2.priority

instance : DecidableRel priorityDesc :=
  fun l r => inferInstanceAs (Decidable (r.2.priority ≤ l.2.priority))

instance : IsTotal (PathBuf × FileStats) priorityDesc :=
  ⟨fun a b => Nat.le_total b.2.priority a.2.priority⟩

instance : IsTrans (PathBuf × FileStats) priorityDesc :=
  ⟨fun _ _ _ h h' => Nat.le_trans h' h⟩

/-- `Cache::sorted_priorities`: pair every cached key with its stats
(default all-zero when missing) and stable-sort descending by priority. -/
def sortedPriorities (c : Cache) : List (PathBuf × FileStats) :=
  List.insertionSort priorityDesc
    (c.file_map.map (fun kv => (kv.1, statsOrDefault c kv.1)))

/-- The victim-selection loop of `make_room_for_new_file`, acting on the
ascending list (the source pops from the tail of the descending one):
while not enough space is accounted for, take the lowest-priority entry,
accumulate its size and priority, and abort when the accumulated
priority exceeds the candidate's. -/
def selectVictims (required newPriority : Nat) :
    List (PathBuf × FileStats) → Nat → Nat → Except CacheError (List (PathBuf × FileStats))
  | asc, freed, prioSum =>
    if required ≤ freed then .ok []
    else
      match asc with
      | [] => .error .NoMoreFilesToRemove
      | (k, st) :: rest =>
        if prioSum + st.priority > newPriority then
          .error .NewPriorityIsNotHighEnough
        else
          match selectVictims required newPriority rest (freed + st.size) (prioSum + st.priority) with
          | .ok vs => .ok ((k, st) :: vs)
          | .error e => .error e

/-- Removal of one key from both the file map and the stats map, the body
of one iteration of the removal loop. -/
def eraseBoth (c : Cache) (k : PathBuf) : Cache :=
  { c with file_map := eraseE c.file_map k, file_stats_map := eraseE c.file_stats_map k }

/-- The removal loop of `make_room_for_new_file`: remove each marked key
from the file map and the stats map, collecting the removed `(key, file)`
pairs.  `none` models the `.unwrap()` panics when a key is missing from
either map. -/
def commitRemovals : List PathBuf → Cache → Option (List (PathBuf × InMemoryFile) × Cache)
  | [], c => some ([], c)
  | k :: rest, c =>
    match findE c.file_map k with
    | none => none
    | some f =>
      match findE c.file_stats_map k with
      | none => none
      | some _ =>
        match commitRemovals rest (eraseBoth c k) with
        | none => none
        | some (removed, c') => some ((k, f) :: removed, c')

/-- Outcome of `make_room_for_new_file`. -/
inductive MakeRoomResult where
  | ok (removed : List (PathBuf × InMemoryFile)) (c : Cache)
  | err (e : CacheError)
  | panic

/-- `Cache::make_room_for_new_file`. -/
def makeRoom (c : Cache) (required newPriority : Nat) : MakeRoomResult :=
  match selectVictims required newPriority (sortedPriorities c).reverse 0 0 with
  | .error e => .err e
  | .ok vs =>
    match commitRemovals (vs.map Prod.fst) c with
    | none => .panic
    | some (removed, c') => .ok removed c'

/-- The state after `try_insert`'s unconditional bookkeeping
(`increment_access_count` then `update_stats`). -/
def postStats (fsys : Fs) (c : Cache) (p : PathBuf) : Cache :=
  updateStats fsys (incrementAccessCount c p) p

/-- `required_space_for_new_file`, computed over `isize` in the source. -/
def requiredSpace (c : Cache) (size : Nat) : Int :=
  (usedBytes c : Int) + (size : Int) - (c.size_limit : Int)

/-- The candidate priority computed in `try_insert`'s eviction branch:
the access-count map's value (`unwrap_or(&1)`) fed to the priority
function with the candidate's size. -/
def newFilePriority (c : Cache) (p : PathBuf) (size : Nat) : Nat :=
  c.priority_function ((findE c.access_count_map p).getD 1) size

/-- Insert content for a key into the file map. -/
def insertFile (c : Cache) (p : PathBuf) (f : InMemoryFile) : Cache :=
  { c with file_map := insertE c.file_map p f }

/-- The rollback of `try_insert`: re-insert every removed `(key, file)`
pair into the file map (the stats map is not restored). -/
def rollback (c : Cache) (removed : List (PathBuf × InMemoryFile)) : Cache :=
  { c with file_map := removed.foldl (fun m kv => insertE m kv.1 kv.2) c.file_map }

/-- Outcome of `try_insert`: a handle plus the new state, an error plus
the new state, or a panic inside the removal loop. -/
inductive TIOutcome where
  | ok (r : ResponderFile) (c : Cache)
  | err (e : CacheError) (c : Cache)
  | panic

/-- The body of `try_insert` after the metadata query succeeded with the
given size: the bookkeeping has run (`postStats`), and the three-way
admission decision is made. -/
def tryInsertBody (fsys : Fs) (c : Cache) (p : PathBuf) (size : Nat) : TIOutcome :=
  if size > (postStats fsys c p).max_file_size ∨ size < (postStats fsys c p).min_file_size then
    match openNamedFile fsys p with
    | some _ => .ok (.fileSystem p) (postStats fsys c p)
    | none => .err .InvalidPath (postStats fsys c p)
  else if requiredSpace (postStats fsys c p) size < 0 ∧ size < (postStats fsys c p).size_limit then
    match openInMemory fsys p with
    | some f => .ok (.cached p f) (insertFile (postStats fsys c p) p f)
    | none => .err .InvalidPath (postStats fsys c p)
  else
    match makeRoom (postStats fsys c p) (requiredSpace (postStats fsys c p) size).toNat
        (newFilePriority (postStats fsys c p) p size) with
    | .ok removed c3 =>
      match openInMemory fsys p with
      | some f => .ok (.cached p f) (insertFile c3 p f)
      | none => .err .InvalidPath (rollback c3 removed)
    | .err _ =>
      match openNamedFile fsys p with
      | some _ => .ok (.fileSystem p) (postStats fsys c p)
      | none => .err .InvalidPath (postStats fsys c p)
    | .panic => .panic

/-- `Cache::try_insert`, translated branch for branch. -/
def tryInsert (fsys : Fs) (c : Cache) (p : PathBuf) : TIOutcome :=
  match getFileSizeFromMetadata fsys p with
  | .error e => .err e c
  | .ok size => tryInsertBody fsys c p size

/-- Outcome of `Cache::get`: the optional handle plus the new state, or a
panic propagated from `try_insert`. -/
inductive GetOutcome where
  | ret (r : Option ResponderFile) (c : Cache)
  | panic

/-- `Cache::get`: serve from the cache (incrementing the access count and
updating stats) or fall back to `try_insert`, whose error becomes `none`. -/
def Cache.get (fsys : Fs) (c : Cache) (p : PathBuf) : GetOutcome :=
  match findE c.file_map p with
  | some f =>
    .ret (some (.cached p f)) (updateStats fsys (incrementAccessCount c p) p)
  | none =>
    match tryInsert fsys c p with
    | .ok r c' => .ret (some r) c'
    | .err _ c' => .ret none c'
    | .panic => .panic

/-- `Cache::refresh`: check key presence, metadata, regular-file flag and
stats presence; when all pass, re-read the content and, only if the read
succeeds, replace the entry and update stats.  Returns the result of the
checks regardless of whether the read succeeded. -/
def Cache.refresh (fsys : Fs) (c : Cache) (p : PathBuf) : Bool × Cache :=
  if (findE c.file_map p).isSome &&
      (match fsys p with
       | some e => e.isFile && (findE c.file_stats_map p).isSome
       | none => false) then
    match openInMemory fsys p with
    | some f => (true, updateStats fsys (insertFile c p f) p)
    | none => (true, c)
  else (false, c)

/-- `Cache::remove`: delete stats and entry, set the access count to 0. -/
def Cache.remove (c : Cache) (p : PathBuf) : Cache :=
  { c with file_stats_map := eraseE c.file_stats_map p,
           file_map := eraseE c.file_map p,
           access_count_map := insertE c.access_count_map p 0 }

/-- One public cache operation (`try_insert` is reached through `get`). -/
inductive Op where
  | get (p : PathBuf)
  | refresh (p : PathBuf)
  | remove (p : PathBuf)
deriving DecidableEq, Repr

/-- Whether an operation is a `refresh`. -/
def Op.isRefresh : Op → Bool
  | .refresh _ => true
  | _ => false

/-- Run one operation against one filesystem snapshot; `none` is a panic,
which poisons the cache's mutex and ends the run. -/
def runOp (fsys : Fs) (c : Cache) : Op → Option Cache
  | .get p =>
    match Cache.get fsys c p with
    | .ret _ c' => some c'
    | .panic => none
  | .refresh p => some (Cache.refresh fsys c p).2
  | .remove p => some (Cache.remove c p)

/-- Run a sequence of operations, each against its own snapshot (the
filesystem may change between operations). -/
def runOps : Cache → List (Fs × Op) → Option Cache
  | c, [] => some c
  | c, (fsys, o) :: rest =>
    match runOp fsys c o with
    | some c' => runOps c' rest
    | none => none

/-! Lemmas about the association-list map operations. -/

/-- Sum of entry sizes of a file map, the specification of `usedBytes`. -/
def sizeSum (m : List (PathBuf × InMemoryFile)) : Nat :=
  (m.map (fun kv => kv.2.size)).sum

theorem foldl_size_eq (m : List (PathBuf × InMemoryFile)) :
    ∀ n : Nat, m.foldl (fun size x => size + x.2.size) n = n + sizeSum m := by
  induction m with
  | nil => intro n; simp [sizeSum]
  | cons kv rest ih =>
    intro n
    simp only [List.foldl_cons, ih, sizeSum, List.map_cons, List.sum_cons]
    omega

theorem usedBytes_eq_sizeSum (c : Cache) : usedBytes c = sizeSum c.file_map := by
  simpa using foldl_size_eq c.file_map 0

theorem findE_eq_none {α : Type} (m : List (PathBuf × α)) (q : PathBuf) :
    findE m q = none ↔ q ∉ keysOf m := by
  induction m with
  | nil => simp [findE, keysOf]
  | cons kv rest ih =>
    simp only [findE, keysOf, List.map_cons, List.mem_cons]
    by_cases h : kv.1 = q
    · simp [h]
    · simp [h, ih, keysOf, fun h' : q = kv.1 => h h'.symm]
      tauto

theorem mem_of_findE_some {α : Type} {m : List (PathBuf × α)} {q : PathBuf} {v : α}
    (h : findE m q = some v) : (q, v) ∈ m := by
  induction m with
  | nil => simp [findE] at h
  | cons kv rest ih =>
    simp only [findE] at h
    split at h
    · rename_i heq
      cases h
      simp only [List.mem_cons]
      left
      rw [← heq]
    · simp only [List.mem_cons]
      exact Or.inr (ih h)

theorem eraseE_cons {α : Type} (kv : PathBuf × α) (rest : List (PathBuf × α)) (q : PathBuf) :
    eraseE (kv :: rest) q = if kv.1 = q then eraseE rest q else kv :: eraseE rest q := by
  by_cases h : kv.1 = q
  · simp [eraseE, List.filter_cons, h]
  · simp [eraseE, List.filter_cons, h]

theorem findE_eraseE {α : Type} (m : List (PathBuf × α)) (k q : PathBuf) :
    findE (eraseE m k) q = if k = q then none else findE m q := by
  induction m with
  | nil =>
    by_cases hq : k = q
    · simp [eraseE, findE, hq]
    · simp [eraseE, findE, hq]
  | cons kv rest ih =>
    rw [eraseE_cons]
    by_cases hk : kv.1 = k
    · rw [if_pos hk, ih]
      by_cases hq : k = q
      · simp [hq]
      · rw [if_neg hq, if_neg hq]
        have hne : ¬ kv.1 = q := fun h => hq (hk.symm.trans h)
        simp [findE, hne]
    · rw [if_neg hk]
      simp only [findE]
      by_cases hq : kv.1 = q
      · have hne : ¬ k = q := fun h => hk (hq.trans h.symm)
        rw [if_pos hq, if_pos hq, if_neg hne]
      · rw [if_neg hq, if_neg hq, ih]

theorem findE_insertE {α : Type} (m : List (PathBuf × α)) (k q : PathBuf) (v : α) :
    findE (insertE m k v) q = if k = q then some v else findE m q := by
  simp only [insertE, findE]
  by_cases h : k = q
  · simp [h]
  · simp [h, findE_eraseE]

theorem eraseE_eq_of_findE_none {α : Type} {m : List (PathBuf × α)} {q : PathBuf}
    (h : findE m q = none) : eraseE m q = m := by
  induction m with
  | nil => rfl
  | cons kv rest ih =>
    simp only [findE] at h
    split at h
    · cases h
    · rename_i hne
      rw [eraseE_cons, if_neg hne, ih h]

theorem eraseE_sublist {α : Type} (m : List (PathBuf × α)) (q : PathBuf) :
    List.Sublist (eraseE m q) m :=
  List.filter_sublist m

theorem keysOf_sublist_of_sublist {α : Type} {m m' : List (PathBuf × α)}
    (h : List.Sublist m' m) : List.Sublist (keysOf m') (keysOf m) :=
  h.map Prod.fst

theorem nodup_keys_eraseE {α : Type} {m : List (PathBuf × α)} (q : PathBuf)
    (h : (keysOf m).Nodup) : (keysOf (eraseE m q)).Nodup :=
  (keysOf_sublist_of_sublist (eraseE_sublist m q)).nodup h

theorem nodup_keys_insertE {α : Type} {m : List (PathBuf × α)} (q : PathBuf) (v : α)
    (h : (keysOf m).Nodup) : (keysOf (insertE m q v)).Nodup := by
  have h1 : (keysOf (eraseE m q)).Nodup := nodup_keys_eraseE q h
  have h2 : q ∉ keysOf (eraseE m q) := by
    rw [← findE_eq_none]
    simp [findE_eraseE]
  simpa [insertE, keysOf] using And.intro (by simpa [keysOf] using h2) (by simpa [keysOf] using h1)

theorem sizeSum_eraseE_le (m : List (PathBuf × InMemoryFile)) (q : PathBuf) :
    sizeSum (eraseE m q) ≤ sizeSum m := by
  induction m with
  | nil => simp [eraseE]
  | cons kv rest ih =>
    rw [eraseE_cons]
    simp only [sizeSum, List.map_cons, List.sum_cons] at ih ⊢
    by_cases h : kv.1 = q
    · rw [if_pos h]
      omega
    · rw [if_neg h]
      simp only [List.map_cons, List.sum_cons]
      omega

theorem sizeSum_insertE (m : List (PathBuf × InMemoryFile)) (q : PathBuf) (f : InMemoryFile) :
    sizeSum (insertE m q f) = f.size + sizeSum (eraseE m q) := by
  simp [insertE, sizeSum]

theorem sizeSum_eraseE_of_findE {m : List (PathBuf × InMemoryFile)} {q : PathBuf}
    {f : InMemoryFile} (hn : (keysOf m).Nodup) (h : findE m q = some f) :
    sizeSum m = f.size + sizeSum (eraseE m q) := by
  induction m with
  | nil => simp [findE] at h
  | cons kv rest ih =>
    simp only [keysOf, List.map_cons, List.nodup_cons] at hn
    simp only [findE] at h
    rw [eraseE_cons]
    by_cases hk : kv.1 = q
    · rw [if_pos hk] at h ⊢
      cases h
      have hnone : findE rest q = none := by
        rw [findE_eq_none]
        exact hk ▸ hn.1
      rw [eraseE_eq_of_findE_none hnone]
      simp [sizeSum]
    · rw [if_neg hk] at h ⊢
      have := ih hn.2 h
      simp only [sizeSum, List.map_cons, List.sum_cons] at this ⊢
      omega

/-! Structural lemmas: which fields each operation leaves untouched. -/

/-- Two cache states with the same configuration (limits and priority
function); every operation preserves it. -/
def sameConfig (c c' : Cache) : Prop :=
  c'.size_limit = c.size_limit ∧ c'.min_file_size = c.min_file_size ∧
    c'.max_file_size = c.max_file_size ∧ c'.priority_function = c.priority_function

theorem sameConfig_refl (c : Cache) : sameConfig c c :=
  ⟨rfl, rfl, rfl, rfl⟩

theorem sameConfig_trans {a b c : Cache} (h1 : sameConfig a b) (h2 : sameConfig b c) :
    sameConfig a c := by
  obtain ⟨x1, x2, x3, x4⟩ := h1
  obtain ⟨y1, y2, y3, y4⟩ := h2
  exact ⟨y1.trans x1, y2.trans x2, y3.trans x3, y4.trans x4⟩

theorem sameConfig_incrementAccessCount (c : Cache) (p : PathBuf) :
    sameConfig c (incrementAccessCount c p) :=
  ⟨rfl, rfl, rfl, rfl⟩

theorem sameConfig_updateStats (fsys : Fs) (c : Cache) (p : PathBuf) :
    sameConfig c (updateStats fsys c p) :=
  ⟨rfl, rfl, rfl, rfl⟩

theorem sameConfig_postStats (fsys : Fs) (c : Cache) (p : PathBuf) :
    sameConfig c (postStats fsys c p) :=
  ⟨rfl, rfl, rfl, rfl⟩

theorem postStats_file_map (fsys : Fs) (c : Cache) (p : PathBuf) :
    (postStats fsys c p).file_map = c.file_map := rfl

theorem postStats_access (fsys : Fs) (c : Cache) (p : PathBuf) :
    (postStats fsys c p).access_count_map =
      insertE c.access_count_map p ((findE c.access_count_map p).getD 0 + 1) := rfl

theorem usedBytes_postStats (fsys : Fs) (c : Cache) (p : PathBuf) :
    usedBytes (postStats fsys c p) = usedBytes c := rfl

/-! Lemmas about the removal loop `commitRemovals`. -/

theorem commitRemovals_spec :
    ∀ {vs : List PathBuf} {c : Cache} {removed : List (PathBuf × InMemoryFile)} {c' : Cache},
    commitRemovals vs c = some (removed, c') →
    removed.map Prod.fst = vs
    ∧ (∀ q, findE c'.file_map q = if q ∈ vs then none else findE c.file_map q)
    ∧ (∀ q, findE c'.file_stats_map q = if q ∈ vs then none else findE c.file_stats_map q)
    ∧ c'.access_count_map = c.access_count_map
    ∧ sameConfig c c'
    ∧ (∀ kv ∈ removed, findE c.file_map kv.1 = some kv.2)
    ∧ (keysOf removed).Nodup
    ∧ ((keysOf c.file_map).Nodup →
        sizeSum c.file_map = sizeSum c'.file_map + sizeSum removed)
    ∧ ((keysOf c.file_map).Nodup → (keysOf c'.file_map).Nodup) := by
  intro vs
  induction vs with
  | nil =>
    intro c removed c' h
    simp only [commitRemovals] at h
    cases h
    refine ⟨rfl, ?_, ?_, rfl, sameConfig_refl c, ?_, ?_, ?_, ?_⟩
    · intro q; simp
    · intro q; simp
    · intro kv hkv; simp at hkv
    · simp [keysOf]
    · intro _; simp [sizeSum]
    · exact fun h => h
  | cons k rest ih =>
    intro c removed c' h
    simp only [commitRemovals] at h
    cases hf : findE c.file_map k with
    | none => rw [hf] at h; cases h
    | some f =>
      rw [hf] at h
      cases hs : findE c.file_stats_map k with
      | none => rw [hs] at h; cases h
      | some st =>
        rw [hs] at h
        cases hc : commitRemovals rest (eraseBoth c k) with
        | none => rw [hc] at h; cases h
        | some pr =>
          obtain ⟨removed1, c1⟩ := pr
          rw [hc] at h
          cases h
          obtain ⟨ihfst, ihfind, ihstats, ihacc, ihcfg, ihrem, ihnod, ihsum, ihkeys⟩ := ih hc
          have hfindc1 : ∀ kv ∈ removed1, kv.1 ≠ k := by
            intro kv hkv hkk
            have h0 := ihrem kv hkv
            rw [show (eraseBoth c k).file_map = eraseE c.file_map k from rfl,
              findE_eraseE, hkk] at h0
            simp at h0
          refine ⟨?_, ?_, ?_, ?_, ?_, ?_, ?_, ?_, ?_⟩
          · simp [ihfst]
          · intro q
            have hfind := ihfind q
            rw [show (eraseBoth c k).file_map = eraseE c.file_map k from rfl,
              findE_eraseE] at hfind
            rw [hfind]
            by_cases hqk : q = k
            · subst hqk
              by_cases hmem : q ∈ rest
              · simp [hmem]
              · simp [hmem]
            · by_cases hmem : q ∈ rest
              · simp [hmem]
              · have hnotc : q ∉ k :: rest := by simp [hmem, fun h : q = k => hqk h]
                rw [if_neg hmem, if_neg hnotc, if_neg (fun h : k = q => hqk h.symm)]
          · intro q
            have hfind := ihstats q
            rw [show (eraseBoth c k).file_stats_map = eraseE c.file_stats_map k from rfl,
              findE_eraseE] at hfind
            rw [hfind]
            by_cases hqk : q = k
            · subst hqk
              by_cases hmem : q ∈ rest
              · simp [hmem]
              · simp [hmem]
            · by_cases hmem : q ∈ rest
              · simp [hmem]
              · have hnotc : q ∉ k :: rest := by simp [hmem, fun h : q = k => hqk h]
                rw [if_neg hmem, if_neg hnotc, if_neg (fun h : k = q => hqk h.symm)]
          · exact ihacc
          · have hmid : sameConfig c (eraseBoth c k) := ⟨rfl, rfl, rfl, rfl⟩
            exact sameConfig_trans hmid ihcfg
          · intro kv hkv
            simp only [List.mem_cons] at hkv
            cases hkv with
            | inl h0 => subst h0; exact hf
            | inr h0 =>
              have hne : kv.1 ≠ k := hfindc1 kv h0
              have h1 := ihrem kv h0
              rw [show (eraseBoth c k).file_map = eraseE c.file_map k from rfl,
                findE_eraseE, if_neg (fun h : k = kv.1 => hne h.symm)] at h1
              exact h1
          · simp only [keysOf, List.map_cons, List.nodup_cons]
            refine ⟨fun hmem => ?_, ihnod⟩
            obtain ⟨kv, hkv, hfst⟩ := List.mem_map.mp hmem
            exact hfindc1 kv hkv hfst
          · intro hn
            have hn1 : (keysOf (eraseE c.file_map k)).Nodup := nodup_keys_eraseE k hn
            have h1 := ihsum hn1
            have htot := sizeSum_eraseE_of_findE hn hf
            rw [show (eraseBoth c k).file_map = eraseE c.file_map k from rfl] at h1
            simp only [sizeSum, List.map_cons, List.sum_cons] at h1 htot ⊢
            omega
          · intro hn
            exact ihkeys (nodup_keys_eraseE k hn)

/-! Lemmas about the victim-selection loop. -/

theorem selectVictims_spec {required newPriority : Nat} :
    ∀ (asc : List (PathBuf × FileStats)) (freed prioSum : Nat)
      {vs : List (PathBuf × FileStats)},
    selectVictims required newPriority asc freed prioSum = .ok vs →
    (∃ rest, asc = vs ++ rest)
    ∧ required ≤ freed + (vs.map (fun kv => kv.2.size)).sum
    ∧ (prioSum + (vs.map (fun kv => kv.2.priority)).sum ≤ newPriority ∨ vs = []) := by
  intro asc
  induction asc with
  | nil =>
    intro freed prioSum vs h
    simp only [selectVictims] at h
    split at h
    · cases h
      refine ⟨⟨[], rfl⟩, by simpa using by omega, Or.inr rfl⟩
    · cases h
  | cons kst rest ih =>
    intro freed prioSum vs h
    simp only [selectVictims] at h
    split at h
    · cases h
      rename_i hle
      exact ⟨⟨kst :: rest, rfl⟩, by simpa using by omega, Or.inr rfl⟩
    · obtain ⟨k, st⟩ := kst
      split at h
      · cases h
      · rename_i hprio
        cases hin : selectVictims required newPriority rest (freed + st.size)
            (prioSum + st.priority) with
        | error e => rw [hin] at h; cases h
        | ok vs1 =>
          rw [hin] at h
          cases h
          obtain ⟨⟨tail, htail⟩, hfreed, hprio1⟩ := ih _ _ hin
          refine ⟨⟨tail, by rw [List.cons_append, ← htail]⟩, ?_, ?_⟩
          · simp only [List.map_cons, List.sum_cons]
            omega
          · left
            simp only [List.map_cons, List.sum_cons]
            cases hprio1 with
            | inl h1 => omega
            | inr h1 =>
              subst h1
              simp only [not_lt] at hprio
              simp
              omega

theorem selectVictims_error_of_allzero {required newPriority : Nat}
    (hreq : 0 < required) :
    ∀ (asc : List (PathBuf × FileStats)) (prioSum : Nat),
    (∀ kv ∈ asc, kv.2.size = 0) →
    ∃ e, selectVictims required newPriority asc 0 prioSum = .error e := by
  intro asc
  induction asc with
  | nil =>
    intro prioSum _
    refine ⟨.NoMoreFilesToRemove, ?_⟩
    simp only [selectVictims]
    rw [if_neg (by omega)]
  | cons kst rest ih =>
    intro prioSum hall
    obtain ⟨k, st⟩ := kst
    have hsz : st.size = 0 := hall (k, st) (by simp)
    simp only [selectVictims]
    rw [if_neg (by omega)]
    by_cases hp : prioSum + st.priority > newPriority
    · exact ⟨.NewPriorityIsNotHighEnough, by rw [if_pos hp]⟩
    · rw [if_neg hp]
      obtain ⟨e, he⟩ := ih (prioSum + st.priority) (fun kv hkv => hall kv (by simp [hkv]))
      rw [show (0 + st.size) = 0 from by omega, he]
      exact ⟨e, rfl⟩

/-! Lemmas about `sortedPriorities`. -/

theorem sortedPriorities_perm (c : Cache) :
    (sortedPriorities c).Perm
      (c.file_map.map (fun kv => (kv.1, statsOrDefault c kv.1))) :=
  List.perm_insertionSort priorityDesc _

theorem sortedPriorities_sorted (c : Cache) :
    List.Sorted priorityDesc (sortedPriorities c) :=
  List.sorted_insertionSort priorityDesc _

theorem mem_sortedPriorities {c : Cache} {kv : PathBuf × FileStats}
    (h : kv ∈ sortedPriorities c) :
    kv.2 = statsOrDefault c kv.1 ∧ kv.1 ∈ keysOf c.file_map := by
  have := (sortedPriorities_perm c).mem_iff.mp h
  obtain ⟨kv0, hkv0, heq⟩ := List.mem_map.mp this
  constructor
  · rw [← heq]
  · rw [← heq]
    exact List.mem_map.mpr ⟨kv0, hkv0, rfl⟩

theorem sortedPriorities_key_mem {c : Cache} {q : PathBuf}
    (h : q ∈ keysOf c.file_map) :
    (q, statsOrDefault c q) ∈ sortedPriorities c := by
  rw [(sortedPriorities_perm c).mem_iff]
  obtain ⟨kv, hkv, heq⟩ := List.mem_map.mp h
  exact List.mem_map.mpr ⟨kv, hkv, by rw [heq]⟩

theorem sortedPriorities_reverse_pairwise (c : Cache) :
    ((sortedPriorities c).reverse).Pairwise
      (fun a b : PathBuf × FileStats => a.2.priority ≤ b.2.priority) := by
  rw [List.pairwise_reverse]
  exact sortedPriorities_sorted c

/-! The size-consistency invariant and the eviction space accounting. -/

/-- For every cached entry, the size the stats table (as read by
`sorted_priorities`, defaulting to 0) attributes to it is at most the
entry's true in-memory size.  This is what makes the freed-space
accounting of the eviction loop sound. -/
def SizeInv (c : Cache) : Prop :=
  ∀ p f, findE c.file_map p = some f → (statsOrDefault c p).size ≤ f.size

theorem victims_size_le_removed {c : Cache} :
    ∀ {vs : List (PathBuf × FileStats)} {removed : List (PathBuf × InMemoryFile)},
    removed.map Prod.fst = vs.map Prod.fst →
    (∀ kv ∈ vs, kv.2 = statsOrDefault c kv.1) →
    (∀ kv ∈ removed, findE c.file_map kv.1 = some kv.2) →
    SizeInv c →
    (vs.map (fun kv => kv.2.size)).sum ≤ sizeSum removed := by
  intro vs
  induction vs with
  | nil =>
    intro removed hfst _ _ _
    simp at hfst
    subst hfst
    simp [sizeSum]
  | cons kst vs1 ih =>
    intro removed hfst hstats hfind hinv
    cases removed with
    | nil => simp at hfst
    | cons r removed1 =>
      simp only [List.map_cons, List.cons.injEq] at hfst
      obtain ⟨hk, hrest⟩ := hfst
      have h1 : kst.2 = statsOrDefault c kst.1 := hstats kst (by simp)
      have h2 : findE c.file_map r.1 = some r.2 := hfind r (by simp)
      have h3 : (statsOrDefault c r.1).size ≤ r.2.size := hinv r.1 r.2 h2
      have h4 := ih hrest (fun kv hkv => hstats kv (by simp [hkv]))
        (fun kv hkv => hfind kv (by simp [hkv])) hinv
      simp only [List.map_cons, List.sum_cons, sizeSum] at h4 ⊢
      rw [hk] at h3
      rw [h1]
      omega

/-! Lemmas about the rollback re-insertion. -/

theorem rollback_cons (c : Cache) (r : PathBuf × InMemoryFile)
    (rest : List (PathBuf × InMemoryFile)) :
    rollback c (r :: rest) = rollback (insertFile c r.1 r.2) rest := rfl

theorem rollback_spec :
    ∀ {removed : List (PathBuf × InMemoryFile)} {c : Cache},
    (keysOf removed).Nodup →
    (∀ kv ∈ removed, findE c.file_map kv.1 = none) →
    (∀ q, findE (rollback c removed).file_map q =
        (findE removed q).or (findE c.file_map q))
    ∧ sizeSum (rollback c removed).file_map = sizeSum c.file_map + sizeSum removed
    ∧ ((keysOf c.file_map).Nodup → (keysOf (rollback c removed).file_map).Nodup) := by
  intro removed
  induction removed with
  | nil =>
    intro c _ _
    refine ⟨fun q => by simp [rollback, findE], by simp [rollback, sizeSum], fun h => h⟩
  | cons r rest ih =>
    intro c hnod hnone
    simp only [keysOf, List.map_cons, List.nodup_cons] at hnod
    have hrk : findE c.file_map r.1 = none := hnone r (by simp)
    have hnone1 : ∀ kv ∈ rest, findE (insertFile c r.1 r.2).file_map kv.1 = none := by
      intro kv hkv
      have hne : kv.1 ≠ r.1 := by
        intro h
        exact hnod.1 (h ▸ List.mem_map.mpr ⟨kv, hkv, rfl⟩)
      rw [show (insertFile c r.1 r.2).file_map = insertE c.file_map r.1 r.2 from rfl,
        findE_insertE, if_neg (fun h : r.1 = kv.1 => hne h.symm)]
      exact hnone kv (by simp [hkv])
    obtain ⟨ihfind, ihsum, ihnod⟩ := ih (by simpa [keysOf] using hnod.2) hnone1
    rw [rollback_cons]
    refine ⟨?_, ?_, ?_⟩
    · intro q
      rw [ihfind q]
      by_cases hq : r.1 = q
      · subst hq
        have : findE rest r.1 = none := by
          rw [findE_eq_none]
          simpa [keysOf] using hnod.1
        rw [this, show (insertFile c r.1 r.2).file_map = insertE c.file_map r.1 r.2 from rfl,
          findE_insertE, if_pos rfl]
        simp [findE]
      · rw [show (insertFile c r.1 r.2).file_map = insertE c.file_map r.1 r.2 from rfl,
          findE_insertE, if_neg hq]
        simp [findE, fun h : r.1 = q => hq h]
    · rw [ihsum, show (insertFile c r.1 r.2).file_map = insertE c.file_map r.1 r.2 from rfl,
        sizeSum_insertE, eraseE_eq_of_findE_none hrk]
      simp only [sizeSum, List.map_cons, List.sum_cons]
      omega
    · intro hn
      exact ihnod (nodup_keys_insertE r.1 r.2 hn)

/-! Effects of the bookkeeping helpers on the stats table. -/

theorem statsOrDefault_congr {c c' : Cache} (q : PathBuf)
    (h : findE c'.file_stats_map q = findE c.file_stats_map q) :
    statsOrDefault c' q = statsOrDefault c q := by
  unfold statsOrDefault
  rw [h]

theorem statsOrDefault_updateStats_ne (fsys : Fs) (c : Cache) {p q : PathBuf}
    (h : p ≠ q) : statsOrDefault (updateStats fsys c p) q = statsOrDefault c q := by
  unfold statsOrDefault updateStats
  simp only [findE_insertE, if_neg h]

theorem statsOrDefault_updateStats_self_cached (fsys : Fs) (c : Cache) {p : PathBuf}
    {f : InMemoryFile} (hf : findE c.file_map p = some f) :
    (statsOrDefault (updateStats fsys c p) p).size = f.size := by
  unfold statsOrDefault updateStats
  simp [findE_insertE, hf]

theorem statsOrDefault_updateStats_self_miss (fsys : Fs) (c : Cache) {p : PathBuf}
    {e : FsEntry} (hf : findE c.file_map p = none) (he : fsys p = some e) :
    (statsOrDefault (updateStats fsys c p) p).size = e.size := by
  unfold statsOrDefault updateStats getFileSizeFromMetadata
  simp [findE_insertE, hf, he, Except.toOption]

theorem sizeInv_updateStats (fsys : Fs) (c : Cache) (p : PathBuf)
    (h : SizeInv c) : SizeInv (updateStats fsys c p) := by
  intro q f hq
  have hq0 : findE c.file_map q = some f := hq
  by_cases hpq : p = q
  · subst hpq
    rw [statsOrDefault_updateStats_self_cached fsys c hq0]
  · rw [statsOrDefault_updateStats_ne fsys c hpq]
    exact h q f hq0

theorem sizeInv_incrementAccessCount (c : Cache) (p : PathBuf)
    (h : SizeInv c) : SizeInv (incrementAccessCount c p) := h

theorem sizeInv_postStats (fsys : Fs) (c : Cache) (p : PathBuf)
    (h : SizeInv c) : SizeInv (postStats fsys c p) :=
  sizeInv_updateStats fsys (incrementAccessCount c p) p
    (sizeInv_incrementAccessCount c p h)

theorem statsOrDefault_postStats_ne (fsys : Fs) (c : Cache) {p q : PathBuf}
    (h : p ≠ q) : statsOrDefault (postStats fsys c p) q = statsOrDefault c q :=
  statsOrDefault_updateStats_ne fsys (incrementAccessCount c p) h

theorem statsOrDefault_postStats_self_miss (fsys : Fs) (c : Cache) {p : PathBuf}
    {e : FsEntry} (hf : findE c.file_map p = none) (he : fsys p = some e) :
    (statsOrDefault (postStats fsys c p) p).size = e.size :=
  statsOrDefault_updateStats_self_miss fsys (incrementAccessCount c p) hf he

theorem openInMemory_some {fsys : Fs} {p : PathBuf} {f : InMemoryFile}
    (h : openInMemory fsys p = some f) :
    ∃ e, fsys p = some e ∧ e.canOpen = true ∧ f = ⟨e.size, e.bytes⟩ := by
  unfold openInMemory at h
  cases he : fsys p with
  | none => rw [he] at h; cases h
  | some e =>
    rw [he] at h
    simp only [] at h
    by_cases hco : e.canOpen = true
    · rw [if_pos hco] at h
      cases h
      exact ⟨e, rfl, hco, rfl⟩
    · rw [if_neg hco] at h
      cases h

theorem insertFile_stats (c : Cache) (p : PathBuf) (f : InMemoryFile) :
    (insertFile c p f).file_stats_map = c.file_stats_map := rfl

theorem usedBytes_insertFile_of_miss {c : Cache} {p : PathBuf} (f : InMemoryFile)
    (hp : findE c.file_map p = none) :
    usedBytes (insertFile c p f) = f.size + usedBytes c := by
  rw [usedBytes_eq_sizeSum, usedBytes_eq_sizeSum,
    show (insertFile c p f).file_map = insertE c.file_map p f from rfl,
    sizeSum_insertE, eraseE_eq_of_findE_none hp]

/-! Combined facts about a successful `make_room_for_new_file`. -/

theorem makeRoom_ok {c : Cache} {R N : Nat} {removed : List (PathBuf × InMemoryFile)}
    {c' : Cache} (h : makeRoom c R N = .ok removed c') :
    ∃ vs, selectVictims R N ((sortedPriorities c).reverse) 0 0 = .ok vs
      ∧ commitRemovals (vs.map Prod.fst) c = some (removed, c') := by
  unfold makeRoom at h
  split at h
  · cases h
  · split at h
    · cases h
    · cases h
      exact ⟨_, by assumption, by assumption⟩

theorem makeRoom_err {c : Cache} {R N : Nat} {e : CacheError}
    (h : makeRoom c R N = .err e) :
    selectVictims R N ((sortedPriorities c).reverse) 0 0 = .error e := by
  unfold makeRoom at h
  split at h
  · cases h
    assumption
  · split at h
    · cases h
    · cases h

theorem victims_are_stats {c : Cache} {R N : Nat} {vs : List (PathBuf × FileStats)}
    (hsel : selectVictims R N ((sortedPriorities c).reverse) 0 0 = .ok vs) :
    ∀ kv ∈ vs, kv.2 = statsOrDefault c kv.1 ∧ kv.1 ∈ keysOf c.file_map := by
  obtain ⟨rest, hpre⟩ := (selectVictims_spec _ 0 0 hsel).1
  intro kv hkv
  have : kv ∈ (sortedPriorities c).reverse := by
    rw [hpre]
    exact List.mem_append.mpr (Or.inl hkv)
  exact mem_sortedPriorities (List.mem_reverse.mp this)

theorem makeRoom_ok_facts {c : Cache} {R N : Nat}
    {removed : List (PathBuf × InMemoryFile)} {c' : Cache}
    (hWF : (keysOf c.file_map).Nodup) (hInv : SizeInv c)
    (h : makeRoom c R N = .ok removed c') :
    (∀ q, findE c'.file_map q =
        if q ∈ removed.map Prod.fst then none else findE c.file_map q)
    ∧ (∀ q, findE c'.file_stats_map q =
        if q ∈ removed.map Prod.fst then none else findE c.file_stats_map q)
    ∧ c'.access_count_map = c.access_count_map
    ∧ sameConfig c c'
    ∧ (∀ kv ∈ removed, findE c.file_map kv.1 = some kv.2)
    ∧ (keysOf removed).Nodup
    ∧ sizeSum c.file_map = sizeSum c'.file_map + sizeSum removed
    ∧ (keysOf c'.file_map).Nodup
    ∧ R ≤ sizeSum removed := by
  obtain ⟨vs, hsel, hcom⟩ := makeRoom_ok h
  obtain ⟨cfst, cfind, cstats, cacc, ccfg, crem, cnod, csum, ckeys⟩ :=
    commitRemovals_spec hcom
  have hstats : ∀ kv ∈ vs, kv.2 = statsOrDefault c kv.1 :=
    fun kv hkv => (victims_are_stats hsel kv hkv).1
  have hbridge : (vs.map (fun kv => kv.2.size)).sum ≤ sizeSum removed :=
    victims_size_le_removed cfst hstats crem hInv
  have hfreed := (selectVictims_spec _ 0 0 hsel).2.1
  refine ⟨?_, ?_, cacc, ccfg, crem, cnod, csum hWF, ckeys hWF, by omega⟩
  · intro q
    rw [cfind q, cfst]
  · intro q
    rw [cstats q, cfst]

/-- The cache state carried by a non-panicking `try_insert` outcome. -/
def TIOutcome.stateOf : TIOutcome → Option Cache
  | .ok _ c => some c
  | .err _ c => some c
  | .panic => none

theorem tryInsert_eq_body {fsys : Fs} {c : Cache} {p : PathBuf} {e : FsEntry}
    (he : fsys p = some e) :
    tryInsert fsys c p = tryInsertBody fsys c p e.size := by
  unfold tryInsert getFileSizeFromMetadata
  rw [he]

theorem tryInsert_eq_err {fsys : Fs} {c : Cache} {p : PathBuf}
    (he : fsys p = none) :
    tryInsert fsys c p = .err .InvalidMetadata c := by
  unfold tryInsert getFileSizeFromMetadata
  rw [he]

theorem requiredSpace_postStats (fsys : Fs) (c : Cache) (p : PathBuf) (size : Nat) :
    requiredSpace (postStats fsys c p) size =
      (usedBytes c : Int) + (size : Int) - (c.size_limit : Int) := rfl

/-- In the eviction branch the required space is nonnegative. -/
theorem required_nonneg {fsys : Fs} {c : Cache} {p : PathBuf} {size : Nat}
    (hfit : ¬(requiredSpace (postStats fsys c p) size < 0 ∧
      size < (postStats fsys c p).size_limit)) :
    0 ≤ requiredSpace (postStats fsys c p) size := by
  rw [requiredSpace_postStats] at hfit ⊢
  have hlim : (postStats fsys c p).size_limit = c.size_limit := rfl
  rw [hlim] at hfit
  by_contra hneg
  push_neg at hneg
  exact hfit ⟨hneg, by omega⟩

theorem tryInsert_invariant {fsys : Fs} {c : Cache} {p : PathBuf}
    (hp : findE c.file_map p = none)
    (hWF : (keysOf c.file_map).Nodup)
    (hSI : SizeInv c)
    (hU : usedBytes c ≤ c.size_limit) :
    ∀ {c' : Cache}, (tryInsert fsys c p).stateOf = some c' →
      (keysOf c'.file_map).Nodup ∧ SizeInv c' ∧ usedBytes c' ≤ c.size_limit
        ∧ sameConfig c c' := by
  intro c' h
  have hWF2 : (keysOf (postStats fsys c p).file_map).Nodup := hWF
  have hSI2 : SizeInv (postStats fsys c p) := sizeInv_postStats fsys c p hSI
  have hU2 : usedBytes (postStats fsys c p) ≤ c.size_limit := hU
  have hcfg2 : sameConfig c (postStats fsys c p) := sameConfig_postStats fsys c p
  cases he : fsys p with
  | none =>
    rw [tryInsert_eq_err he] at h
    simp only [TIOutcome.stateOf] at h
    cases h
    exact ⟨hWF, hSI, hU, sameConfig_refl c⟩
  | some e =>
    rw [tryInsert_eq_body he] at h
    unfold tryInsertBody at h
    split at h
    · -- size-constraint rejection
      split at h
      all_goals
        simp only [TIOutcome.stateOf] at h
        cases h
        exact ⟨hWF2, hSI2, hU2, hcfg2⟩
    · split at h
      · -- direct fit
        rename_i hnosz hfit
        split at h
        · rename_i f hopen
          simp only [TIOutcome.stateOf] at h
          cases h
          obtain ⟨e1, he1, hco, hf⟩ := openInMemory_some hopen
          rw [he] at he1
          cases he1
          have hp2 : findE (postStats fsys c p).file_map p = none := hp
          refine ⟨nodup_keys_insertE p f hWF2, ?_, ?_, ?_⟩
          · -- SizeInv after a direct-fit insert
            intro q f' hq
            rw [show (insertFile (postStats fsys c p) p f).file_map =
                insertE (postStats fsys c p).file_map p f from rfl,
              findE_insertE] at hq
            by_cases hpq : p = q
            · rw [if_pos hpq] at hq
              cases hq
              subst hpq
              have : statsOrDefault (insertFile (postStats fsys c p) p f) p =
                  statsOrDefault (postStats fsys c p) p :=
                statsOrDefault_congr p rfl
              rw [this, statsOrDefault_postStats_self_miss fsys c hp he, hf]
            · rw [if_neg hpq] at hq
              have : statsOrDefault (insertFile (postStats fsys c p) p f) q =
                  statsOrDefault (postStats fsys c p) q :=
                statsOrDefault_congr q rfl
              rw [this]
              exact hSI2 q f' hq
          · rw [usedBytes_insertFile_of_miss f hp2]
            obtain ⟨hreq, _⟩ := hfit
            rw [requiredSpace_postStats] at hreq
            have : usedBytes (postStats fsys c p) = usedBytes c := rfl
            rw [this, hf]
            simp only []
            omega
          · exact sameConfig_trans hcfg2 ⟨rfl, rfl, rfl, rfl⟩
        · simp only [TIOutcome.stateOf] at h
          cases h
          exact ⟨hWF2, hSI2, hU2, hcfg2⟩
      · -- eviction branch
        rename_i hnosz hnofit
        split at h
        · -- makeRoom succeeded
          rename_i removed c3 hmk
          obtain ⟨mfind, mstats, macc, mcfg, mrem, mnod, msum, mkeys, mreq⟩ :=
            makeRoom_ok_facts hWF2 hSI2 hmk
          have hreq0 : 0 ≤ requiredSpace (postStats fsys c p) e.size :=
            required_nonneg hnofit
          have hfind3p : findE c3.file_map p = none := by
            rw [mfind p]
            by_cases hmem : p ∈ removed.map Prod.fst
            · rw [if_pos hmem]
            · rw [if_neg hmem]
              exact hp
          split at h
          · -- content read succeeded: commit the insertion
            rename_i f hopen
            simp only [TIOutcome.stateOf] at h
            cases h
            obtain ⟨e1, he1, hco, hf⟩ := openInMemory_some hopen
            rw [he] at he1
            cases he1
            refine ⟨nodup_keys_insertE p f mkeys, ?_, ?_, ?_⟩
            · -- SizeInv after the eviction-path insert
              intro q f' hq
              rw [show (insertFile c3 p f).file_map = insertE c3.file_map p f from rfl,
                findE_insertE] at hq
              have hsteq : (insertFile c3 p f).file_stats_map = c3.file_stats_map := rfl
              by_cases hpq : p = q
              · rw [if_pos hpq] at hq
                cases hq
                subst hpq
                have hpm : p ∉ removed.map Prod.fst := by
                  intro hmem
                  obtain ⟨kv, hkv, hfst⟩ := List.mem_map.mp hmem
                  have := mrem kv hkv
                  rw [hfst] at this
                  rw [show findE (postStats fsys c p).file_map p =
                    findE c.file_map p from rfl, hp] at this
                  cases this
                have h1 : statsOrDefault (insertFile c3 p f) p = statsOrDefault c3 p :=
                  statsOrDefault_congr p rfl
                have hst3 : findE c3.file_stats_map p =
                    findE (postStats fsys c p).file_stats_map p := by
                  rw [mstats p, if_neg hpm]
                rw [h1, statsOrDefault_congr p hst3,
                  statsOrDefault_postStats_self_miss fsys c hp he, hf]
              · rw [if_neg hpq] at hq
                have hqm : q ∉ removed.map Prod.fst := by
                  intro hmem
                  rw [mfind q, if_pos hmem] at hq
                  cases hq
                rw [mfind q, if_neg hqm] at hq
                have h1 : statsOrDefault (insertFile c3 p f) q = statsOrDefault c3 q :=
                  statsOrDefault_congr q rfl
                have hst3 : findE c3.file_stats_map q =
                    findE (postStats fsys c p).file_stats_map q := by
                  rw [mstats q, if_neg hqm]
                rw [h1, statsOrDefault_congr q hst3]
                exact hSI2 q f' hq
            · -- the size bound after eviction and insertion
              rw [usedBytes_insertFile_of_miss f hfind3p, hf]
              rw [requiredSpace_postStats] at hreq0
              have husd : usedBytes c = sizeSum c.file_map := usedBytes_eq_sizeSum c
              have husd3 : usedBytes c3 = sizeSum c3.file_map := usedBytes_eq_sizeSum c3
              have hms : sizeSum (postStats fsys c p).file_map = sizeSum c.file_map := rfl
              rw [hms] at msum
              have hR : (requiredSpace (postStats fsys c p) e.size).toNat ≤
                  sizeSum removed := mreq
              rw [requiredSpace_postStats] at hR
              rw [usedBytes_eq_sizeSum]
              simp only []
              omega
            · exact sameConfig_trans hcfg2 (sameConfig_trans mcfg ⟨rfl, rfl, rfl, rfl⟩)
          · -- content read failed: roll back
            simp only [TIOutcome.stateOf] at h
            cases h
            have hnone3 : ∀ kv ∈ removed, findE c3.file_map kv.1 = none := by
              intro kv hkv
              rw [mfind kv.1, if_pos (List.mem_map.mpr ⟨kv, hkv, rfl⟩)]
            obtain ⟨rfind, rsum, rnod⟩ := rollback_spec mnod hnone3
            refine ⟨rnod mkeys, ?_, ?_, ?_⟩
            · -- SizeInv after rollback
              intro q f' hq
              rw [rfind q] at hq
              have hsteq : (rollback c3 removed).file_stats_map = c3.file_stats_map := rfl
              cases hrq : findE removed q with
              | some fr =>
                have hqm : q ∈ removed.map Prod.fst :=
                  List.mem_map.mpr ⟨(q, fr), mem_of_findE_some hrq, rfl⟩
                have : statsOrDefault (rollback c3 removed) q = statsOrDefault c3 q :=
                  statsOrDefault_congr q rfl
                rw [this]
                unfold statsOrDefault
                rw [mstats q, if_pos hqm]
                simp
              | none =>
                rw [hrq] at hq
                simp only [Option.or] at hq
                have hqm : q ∉ removed.map Prod.fst := by
                  intro hmem
                  rw [mfind q, if_pos hmem] at hq
                  cases hq
                rw [mfind q, if_neg hqm] at hq
                have h1 : statsOrDefault (rollback c3 removed) q = statsOrDefault c3 q :=
                  statsOrDefault_congr q rfl
                have hst3 : findE c3.file_stats_map q =
                    findE (postStats fsys c p).file_stats_map q := by
                  rw [mstats q, if_neg hqm]
                rw [h1, statsOrDefault_congr q hst3]
                exact hSI2 q f' hq
            · rw [usedBytes_eq_sizeSum, rsum]
              have hms : sizeSum (postStats fsys c p).file_map = sizeSum c.file_map := rfl
              rw [hms] at msum
              rw [usedBytes_eq_sizeSum] at hU
              omega
            · exact sameConfig_trans hcfg2 (sameConfig_trans mcfg ⟨rfl, rfl, rfl, rfl⟩)
        · -- makeRoom failed: passthrough
          split at h
          all_goals
            simp only [TIOutcome.stateOf] at h
            cases h
            exact ⟨hWF2, hSI2, hU2, hcfg2⟩
        · -- makeRoom panicked
          simp only [TIOutcome.stateOf] at h
          cases h

theorem get_invariant {fsys : Fs} {c : Cache} {p : PathBuf}
    (hWF : (keysOf c.file_map).Nodup) (hSI : SizeInv c)
    (hU : usedBytes c ≤ c.size_limit) :
    ∀ {r : Option ResponderFile} {c' : Cache}, Cache.get fsys c p = .ret r c' →
      (keysOf c'.file_map).Nodup ∧ SizeInv c' ∧ usedBytes c' ≤ c.size_limit
        ∧ sameConfig c c' := by
  intro r c' h
  unfold Cache.get at h
  cases hp : findE c.file_map p with
  | some f =>
    rw [hp] at h
    cases h
    exact ⟨hWF, sizeInv_updateStats fsys (incrementAccessCount c p) p hSI, hU,
      sameConfig_postStats fsys c p⟩
  | none =>
    rw [hp] at h
    cases hti : tryInsert fsys c p with
    | ok r1 c1 =>
      rw [hti] at h
      cases h
      exact tryInsert_invariant hp hWF hSI hU (by rw [hti]; rfl)
    | err e1 c1 =>
      rw [hti] at h
      cases h
      exact tryInsert_invariant hp hWF hSI hU (by rw [hti]; rfl)
    | panic =>
      rw [hti] at h
      cases h

theorem remove_invariant (c : Cache) (p : PathBuf)
    (hWF : (keysOf c.file_map).Nodup) (hSI : SizeInv c)
    (hU : usedBytes c ≤ c.size_limit) :
    (keysOf (Cache.remove c p).file_map).Nodup ∧ SizeInv (Cache.remove c p)
      ∧ usedBytes (Cache.remove c p) ≤ c.size_limit
      ∧ sameConfig c (Cache.remove c p) := by
  refine ⟨nodup_keys_eraseE p hWF, ?_, ?_, ⟨rfl, rfl, rfl, rfl⟩⟩
  · intro q f hq
    rw [show (Cache.remove c p).file_map = eraseE c.file_map p from rfl,
      findE_eraseE] at hq
    by_cases hpq : p = q
    · rw [if_pos hpq] at hq
      cases hq
    · rw [if_neg hpq] at hq
      have hst : findE (Cache.remove c p).file_stats_map q = findE c.file_stats_map q := by
        rw [show (Cache.remove c p).file_stats_map = eraseE c.file_stats_map p from rfl,
          findE_eraseE, if_neg hpq]
      rw [statsOrDefault_congr q hst]
      exact hSI q f hq
  · calc usedBytes (Cache.remove c p)
        = sizeSum (eraseE c.file_map p) := usedBytes_eq_sizeSum _
      _ ≤ sizeSum c.file_map := sizeSum_eraseE_le c.file_map p
      _ = usedBytes c := (usedBytes_eq_sizeSum c).symm
      _ ≤ c.size_limit := hU

theorem runOp_invariant {fsys : Fs} {c : Cache} {o : Op} {c' : Cache}
    (hnr : o.isRefresh = false)
    (hWF : (keysOf c.file_map).Nodup) (hSI : SizeInv c)
    (hU : usedBytes c ≤ c.size_limit)
    (h : runOp fsys c o = some c') :
    (keysOf c'.file_map).Nodup ∧ SizeInv c' ∧ usedBytes c' ≤ c.size_limit
      ∧ sameConfig c c' := by
  cases o with
  | get p =>
    simp only [runOp] at h
    cases hg : Cache.get fsys c p with
    | ret r c1 =>
      rw [hg] at h
      cases h
      exact get_invariant hWF hSI hU hg
    | panic => rw [hg] at h; cases h
  | refresh p => cases hnr
  | remove p =>
    simp only [runOp] at h
    cases h
    exact remove_invariant c p hWF hSI hU

theorem runOps_invariant :
    ∀ {ops : List (Fs × Op)} {c c' : Cache},
    (∀ x ∈ ops, Op.isRefresh x.2 = false) →
    (keysOf c.file_map).Nodup → SizeInv c → usedBytes c ≤ c.size_limit →
    runOps c ops = some c' →
    (keysOf c'.file_map).Nodup ∧ SizeInv c' ∧ usedBytes c' ≤ c.size_limit
      ∧ sameConfig c c' := by
  intro ops
  induction ops with
  | nil =>
    intro c c' _ hWF hSI hU h
    cases h
    exact ⟨hWF, hSI, hU, sameConfig_refl c⟩
  | cons x rest ih =>
    intro c c' hnr hWF hSI hU h
    obtain ⟨fsys, o⟩ := x
    unfold runOps at h
    cases h1 : runOp fsys c o with
    | none => rw [h1] at h; cases h
    | some c1 =>
      rw [h1] at h
      obtain ⟨hWF1, hSI1, hU1, hcfg1⟩ :=
        runOp_invariant (hnr (fsys, o) (by simp)) hWF hSI hU h1
      have hU1L : usedBytes c1 ≤ c1.size_limit := by
        rw [hcfg1.1]
        exact hU1
      obtain ⟨hWF2, hSI2, hU2, hcfg2⟩ :=
        ih (fun y hy => hnr y (by simp [hy])) hWF1 hSI1 hU1L h
      refine ⟨hWF2, hSI2, ?_, sameConfig_trans hcfg1 hcfg2⟩
      rw [hcfg1.1] at hU2
      exact hU2

/-! Concrete artifacts used by witnesses and counterexamples. -/

/-- A concrete pluggable priority function (access count times size). -/
def pfMul : Nat → Nat → Nat := fun a s => a * s

/-- Snapshot: path 1 is a 5-byte regular readable file. -/
def fsC1a : Fs := fun p => if p = 1 then some ⟨5, true, true, 0⟩ else none

/-- Snapshot: path 1 grew to 7 bytes on disk. -/
def fsC1b : Fs := fun p => if p = 1 then some ⟨7, true, true, 1⟩ else none

/-- State after admitting the 5-byte file into a 5-byte cache. -/
def cW1 : Cache := ⟨5, 0, usizeMax, pfMul, [(1, ⟨5, 0⟩)], [(1, ⟨5, 1, 5⟩)], [(1, 1)]⟩

/-- State after `refresh` re-read the grown 7-byte file: 7 bytes cached in
a cache whose limit is 5. -/
def cX1 : Cache := ⟨5, 0, usizeMax, pfMul, [(1, ⟨7, 1⟩)], [(1, ⟨7, 1, 7⟩)], [(1, 1)]⟩

/-- C1 (amended): starting from a freshly constructed cache, after every
completed `get` (hence `try_insert`) and `remove` operation,
`used_bytes() ≤ size_limit`; `refresh` is excluded because it performs no
size check (see the counterexample). -/
theorem C1_amended_size_invariant (limit : Nat) (pf : Nat → Nat → Nat)
    (ops : List (Fs × Op)) (hnr : ∀ x ∈ ops, Op.isRefresh x.2 = false)
    (c' : Cache) (hrun : runOps (Cache.new limit pf) ops = some c') :
    usedBytes c' ≤ limit := by
  have hWF : (keysOf (Cache.new limit pf).file_map).Nodup := List.nodup_nil
  have hSI : SizeInv (Cache.new limit pf) := by
    intro q f hq
    simp [Cache.new, findE] at hq
  have hU : usedBytes (Cache.new limit pf) ≤ (Cache.new limit pf).size_limit := by
    simp [Cache.new, usedBytes]
  obtain ⟨_, _, hle, _⟩ := runOps_invariant hnr hWF hSI hU hrun
  exact hle

/-- C1 witness: a 5-byte file admitted into a fresh 5-byte cache leaves
`used_bytes = 5 ≤ 5`. -/
theorem C1_amended_size_invariant_witness : usedBytes cW1 ≤ 5 :=
  C1_amended_size_invariant 5 pfMul [(fsC1a, .get 1)] (by decide) cW1 rfl

/-- C1 counterexample: admit a 5-byte file into a 5-byte cache, let the
backing file grow to 7 bytes, `refresh` it; the refreshed cache holds
7 bytes, exceeding the limit, so the size invariant does not survive
`refresh`. -/
theorem C1_counterexample :
    runOps (Cache.new 5 pfMul) [(fsC1a, .get 1), (fsC1b, .refresh 1)] = some cX1
      ∧ cX1.size_limit < usedBytes cX1 :=
  ⟨rfl, by decide⟩

theorem updateStats_stats_kept (fsys : Fs) (c : Cache) (p q : PathBuf)
    (h : findE c.file_stats_map q ≠ none) :
    findE (updateStats fsys c p).file_stats_map q ≠ none := by
  unfold updateStats
  simp only [findE_insertE]
  by_cases hpq : p = q
  · simp [hpq]
  · simp only [if_neg hpq]
    exact h

theorem openNamedFile_of_canOpen {fsys : Fs} {p : PathBuf} {e : FsEntry}
    (he : fsys p = some e) (hco : e.canOpen = true) :
    openNamedFile fsys p = some () := by
  unfold openNamedFile
  rw [he]
  show (if e.canOpen = true then some () else none) = some ()
  rw [if_pos hco]

theorem openInMemory_of_canOpen {fsys : Fs} {p : PathBuf} {e : FsEntry}
    (he : fsys p = some e) (hco : e.canOpen = true) :
    openInMemory fsys p = some ⟨e.size, e.bytes⟩ := by
  unfold openInMemory
  rw [he]
  show (if e.canOpen = true then some (⟨e.size, e.bytes⟩ : InMemoryFile) else none)
    = some ⟨e.size, e.bytes⟩
  rw [if_pos hco]

theorem openInMemory_of_notOpen {fsys : Fs} {p : PathBuf} {e : FsEntry}
    (he : fsys p = some e) (hco : e.canOpen = false) :
    openInMemory fsys p = none := by
  unfold openInMemory
  rw [he]
  show (if e.canOpen = true then some (⟨e.size, e.bytes⟩ : InMemoryFile) else none) = none
  rw [if_neg (by simp [hco])]

/-! C7: counter independence. -/

/-- C7: `remove` zeroes the access counter for the key, while eviction
through `make_room_for_new_file` and `refresh` leave the whole access
count map unchanged. -/
theorem C7_counter_independence (c : Cache) (p : PathBuf) (fsys : Fs) :
    findE (Cache.remove c p).access_count_map p = some 0
    ∧ (Cache.refresh fsys c p).2.access_count_map = c.access_count_map
    ∧ (∀ (R N : Nat) (removed : List (PathBuf × InMemoryFile)) (c' : Cache),
        makeRoom c R N = .ok removed c' →
        c'.access_count_map = c.access_count_map) := by
  refine ⟨?_, ?_, ?_⟩
  · rw [show (Cache.remove c p).access_count_map = insertE c.access_count_map p 0
      from rfl, findE_insertE, if_pos rfl]
  · unfold Cache.refresh
    split
    · split
      · rfl
      · rfl
    · rfl
  · intro R N removed c' h
    obtain ⟨vs, hsel, hcom⟩ := makeRoom_ok h
    exact (commitRemovals_spec hcom).2.2.2.1

/-- C7 witness at concrete inputs: the empty 5-byte cache and path 1;
`makeRoom` with no space required evicts nothing and keeps the counters. -/
theorem C7_counter_independence_witness :
    findE (Cache.remove (Cache.new 5 pfMul) 1).access_count_map 1 = some 0
    ∧ (Cache.refresh fsC1a (Cache.new 5 pfMul) 1).2.access_count_map
        = (Cache.new 5 pfMul).access_count_map
    ∧ (Cache.new 5 pfMul).access_count_map = (Cache.new 5 pfMul).access_count_map := by
  obtain ⟨h1, h2, h3⟩ := C7_counter_independence (Cache.new 5 pfMul) 1 fsC1a
  exact ⟨h1, h2, h3 0 0 [] (Cache.new 5 pfMul) rfl⟩

/-! C10: exact fit is admitted through the eviction path. -/

/-- C10: when the candidate passes the size constraints and
`used_bytes + size` equals `size_limit` exactly, the direct-fit test
fails but the eviction path succeeds with an empty victim set, the
content is read and cached, no other entry is touched, and the cache
ends exactly full. -/
theorem C10_exact_fit (fsys : Fs) (c : Cache) (p : PathBuf) (e : FsEntry)
    (he : fsys p = some e) (hopen : e.canOpen = true)
    (hmax : ¬ e.size > c.max_file_size) (hmin : ¬ e.size < c.min_file_size)
    (hp : findE c.file_map p = none)
    (hexact : usedBytes c + e.size = c.size_limit) :
    tryInsert fsys c p = .ok (.cached p ⟨e.size, e.bytes⟩)
        (insertFile (postStats fsys c p) p ⟨e.size, e.bytes⟩)
    ∧ (∀ q, q ≠ p →
        findE (insertFile (postStats fsys c p) p ⟨e.size, e.bytes⟩).file_map q
          = findE c.file_map q)
    ∧ usedBytes (insertFile (postStats fsys c p) p ⟨e.size, e.bytes⟩) = c.size_limit := by
  have hr : requiredSpace (postStats fsys c p) e.size = 0 := by
    rw [requiredSpace_postStats]
    omega
  have h1 : ¬(e.size > (postStats fsys c p).max_file_size
      ∨ e.size < (postStats fsys c p).min_file_size) := fun hor => hor.elim hmax hmin
  have h2 : ¬(requiredSpace (postStats fsys c p) e.size < 0
      ∧ e.size < (postStats fsys c p).size_limit) := by
    intro hand
    rw [hr] at hand
    exact absurd hand.1 (lt_irrefl 0)
  have hsel : selectVictims (requiredSpace (postStats fsys c p) e.size).toNat
      (newFilePriority (postStats fsys c p) p e.size)
      ((sortedPriorities (postStats fsys c p)).reverse) 0 0 = .ok [] := by
    rw [hr]
    unfold selectVictims
    rw [if_pos (show Int.toNat 0 ≤ 0 from Nat.le_refl 0)]
  have hmk : makeRoom (postStats fsys c p)
      (requiredSpace (postStats fsys c p) e.size).toNat
      (newFilePriority (postStats fsys c p) p e.size)
      = .ok [] (postStats fsys c p) := by
    unfold makeRoom
    rw [hsel]
    rfl
  have hoi : openInMemory fsys p = some ⟨e.size, e.bytes⟩ :=
    openInMemory_of_canOpen he hopen
  refine ⟨?_, ?_, ?_⟩
  · rw [tryInsert_eq_body he]
    unfold tryInsertBody
    rw [if_neg h1, if_neg h2, hoi, hmk]
  · intro q hq
    rw [show (insertFile (postStats fsys c p) p ⟨e.size, e.bytes⟩).file_map
        = insertE (postStats fsys c p).file_map p ⟨e.size, e.bytes⟩ from rfl,
      findE_insertE, if_neg (fun h : p = q => hq h.symm)]
    rfl
  · have hp2 : findE (postStats fsys c p).file_map p = none := hp
    rw [usedBytes_insertFile_of_miss _ hp2]
    have : usedBytes (postStats fsys c p) = usedBytes c := rfl
    rw [this]
    simp only []
    omega

/-- Snapshot for the C10 witness: path 1 is a 5-byte readable file. -/
def fsC10 : Fs := fun p => if p = 1 then some ⟨5, true, true, 2⟩ else none

/-- C10 witness: a 5-byte file exactly fills a fresh 5-byte cache. -/
theorem C10_exact_fit_witness :
    tryInsert fsC10 (Cache.new 5 pfMul) 1 = .ok (.cached 1 ⟨5, 2⟩)
        (insertFile (postStats fsC10 (Cache.new 5 pfMul) 1) 1 ⟨5, 2⟩)
    ∧ findE (insertFile (postStats fsC10 (Cache.new 5 pfMul) 1) 1 ⟨5, 2⟩).file_map 2
        = findE (Cache.new 5 pfMul).file_map 2
    ∧ usedBytes (insertFile (postStats fsC10 (Cache.new 5 pfMul) 1) 1 ⟨5, 2⟩)
        = (Cache.new 5 pfMul).size_limit := by
  obtain ⟨h1, h2, h3⟩ := C10_exact_fit fsC10 (Cache.new 5 pfMul) 1 ⟨5, true, true, 2⟩
    rfl rfl (by decide) (by decide) rfl (by decide)
  exact ⟨h1, h2 2 (by decide), h3⟩

/-! C3: a failed eviction mutates nothing and the candidate is served
via passthrough. -/

/-- C3: when the metadata query succeeds, the size constraints pass, the
direct fit fails and `make_room_for_new_file` returns an error, then
(provided the backing item can be opened) `try_insert` returns a
passthrough `NamedFile` handle, the file map is exactly the one from
before the call, and no stats record has been removed (the candidate's
own record was added/updated by the bookkeeping, nothing was deleted). -/
theorem C3_abort_no_mutation (fsys : Fs) (c : Cache) (p : PathBuf) (e : FsEntry)
    (he : fsys p = some e) (hopen : e.canOpen = true)
    (hmax : ¬ e.size > c.max_file_size) (hmin : ¬ e.size < c.min_file_size)
    (hfit : ¬(requiredSpace (postStats fsys c p) e.size < 0 ∧ e.size < c.size_limit))
    (err : CacheError)
    (hmk : makeRoom (postStats fsys c p)
        (requiredSpace (postStats fsys c p) e.size).toNat
        (newFilePriority (postStats fsys c p) p e.size) = .err err) :
    tryInsert fsys c p = .ok (.fileSystem p) (postStats fsys c p)
    ∧ (postStats fsys c p).file_map = c.file_map
    ∧ (∀ q, findE c.file_stats_map q ≠ none →
        findE (postStats fsys c p).file_stats_map q ≠ none) := by
  have h1 : ¬(e.size > (postStats fsys c p).max_file_size
      ∨ e.size < (postStats fsys c p).min_file_size) := fun hor => hor.elim hmax hmin
  have hnf : openNamedFile fsys p = some () := openNamedFile_of_canOpen he hopen
  have hfit2 : ¬(requiredSpace (postStats fsys c p) e.size < 0
      ∧ e.size < (postStats fsys c p).size_limit) := hfit
  refine ⟨?_, rfl, ?_⟩
  · rw [tryInsert_eq_body he]
    unfold tryInsertBody
    rw [if_neg h1, if_neg hfit2, hnf, hmk]
  · intro q hq
    exact updateStats_stats_kept fsys (incrementAccessCount c p) p q hq

/-- C3 witness: a 1-byte file against a fresh cache whose size limit is
0; eviction fails with `NoMoreFilesToRemove` and a passthrough handle is
returned. -/
theorem C3_abort_no_mutation_witness :
    tryInsert fsC1a (Cache.new 0 pfMul) 1
        = .ok (.fileSystem 1) (postStats fsC1a (Cache.new 0 pfMul) 1)
    ∧ (postStats fsC1a (Cache.new 0 pfMul) 1).file_map = (Cache.new 0 pfMul).file_map
    ∧ (findE (Cache.new 0 pfMul).file_stats_map 1 ≠ none →
        findE (postStats fsC1a (Cache.new 0 pfMul) 1).file_stats_map 1 ≠ none) := by
  obtain ⟨h1, h2, h3⟩ := C3_abort_no_mutation fsC1a (Cache.new 0 pfMul) 1 ⟨5, true, true, 0⟩
    rfl rfl (by decide) (by decide) (by decide) .NoMoreFilesToRemove rfl
  exact ⟨h1, h2, h3 1⟩

/-! C2: rollback after a failed content read restores the entry store. -/

/-- C2: if the eviction inside `try_insert` succeeds but the subsequent
content read fails, the call fails with `InvalidPath`, every evicted
entry is re-inserted, and both the file map (pointwise) and
`used_bytes` equal their values from before the call. -/
theorem C2_rollback_restores (fsys : Fs) (c : Cache) (p : PathBuf) (e : FsEntry)
    (hWF : (keysOf c.file_map).Nodup)
    (hp : findE c.file_map p = none)
    (he : fsys p = some e) (hopen : e.canOpen = false)
    (hmax : ¬ e.size > c.max_file_size) (hmin : ¬ e.size < c.min_file_size)
    (hfit : ¬(requiredSpace (postStats fsys c p) e.size < 0 ∧ e.size < c.size_limit))
    (removed : List (PathBuf × InMemoryFile)) (c3 : Cache)
    (hmk : makeRoom (postStats fsys c p)
        (requiredSpace (postStats fsys c p) e.size).toNat
        (newFilePriority (postStats fsys c p) p e.size) = .ok removed c3) :
    tryInsert fsys c p = .err .InvalidPath (rollback c3 removed)
    ∧ (∀ q, findE (rollback c3 removed).file_map q = findE c.file_map q)
    ∧ usedBytes (rollback c3 removed) = usedBytes c := by
  have h1 : ¬(e.size > (postStats fsys c p).max_file_size
      ∨ e.size < (postStats fsys c p).min_file_size) := fun hor => hor.elim hmax hmin
  have hoi : openInMemory fsys p = none := openInMemory_of_notOpen he hopen
  obtain ⟨vs, hsel, hcom⟩ := makeRoom_ok hmk
  obtain ⟨cfst, cfind, cstats, cacc, ccfg, crem, cnod, csum, ckeys⟩ :=
    commitRemovals_spec hcom
  have hWF2 : (keysOf (postStats fsys c p).file_map).Nodup := hWF
  have hnone3 : ∀ kv ∈ removed, findE c3.file_map kv.1 = none := by
    intro kv hkv
    rw [cfind kv.1, if_pos (cfst ▸ List.mem_map.mpr ⟨kv, hkv, rfl⟩)]
  obtain ⟨rfind, rsum, rnod⟩ := rollback_spec cnod hnone3
  have hfit2 : ¬(requiredSpace (postStats fsys c p) e.size < 0
      ∧ e.size < (postStats fsys c p).size_limit) := hfit
  refine ⟨?_, ?_, ?_⟩
  · rw [tryInsert_eq_body he]
    unfold tryInsertBody
    rw [if_neg h1, if_neg hfit2, hoi, hmk]
  · intro q
    rw [rfind q]
    cases hrq : findE removed q with
    | some fr =>
      have hmem : (q, fr) ∈ removed := mem_of_findE_some hrq
      have := crem (q, fr) hmem
      simp only [Option.or]
      exact this.symm
    | none =>
      simp only [Option.or]
      have hqm : q ∉ vs.map Prod.fst := by
        rw [← cfst]
        intro hmem
        exact (findE_eq_none removed q).mp hrq hmem
      rw [cfind q, if_neg hqm]
      rfl
  · rw [usedBytes_eq_sizeSum, rsum, usedBytes_eq_sizeSum]
    have := csum hWF2
    have hms : sizeSum (postStats fsys c p).file_map = sizeSum c.file_map := rfl
    rw [hms] at this
    omega

/-! C9: what `refresh` returns. -/

/-- State after admitting a 5-byte file (bytes token 9) into a fresh
10-byte cache. -/
def cC9 : Cache := ⟨10, 0, usizeMax, pfMul, [(1, ⟨5, 9⟩)], [(1, ⟨5, 1, 5⟩)], [(1, 1)]⟩

/-- Snapshot for C9: path 1 is a 5-byte readable regular file. -/
def fsC9a : Fs := fun p => if p = 1 then some ⟨5, true, true, 9⟩ else none

/-- Snapshot for C9: path 1 grew to 7 bytes and became unreadable
(metadata still succeeds, opening fails). -/
def fsC9b : Fs := fun p => if p = 1 then some ⟨7, true, false, 8⟩ else none

/-- C9 counterexample: after caching the 5-byte file, the backing item
changes to a 7-byte unreadable file; `refresh` passes its existence
checks and returns `true`, yet the stored content is not replaced (the
whole cache state is unchanged, still holding the old 5-byte content).
So `refresh` can return `true` without a refresh actually performed. -/
theorem C9_counterexample :
    Cache.get fsC9a (Cache.new 10 pfMul) 1 = .ret (some (.cached 1 ⟨5, 9⟩)) cC9
    ∧ (Cache.refresh fsC9b cC9 1).1 = true
    ∧ (Cache.refresh fsC9b cC9 1).2 = cC9
    ∧ findE cC9.file_map 1 = some ⟨5, 9⟩ :=
  ⟨rfl, rfl, rfl, rfl⟩

/-- C9 (amended): `refresh` returns `true` exactly when its checks pass —
the key is cached, the backing metadata succeeds for a regular file, and
a stats record exists — regardless of whether the re-read succeeds; and
whenever the re-read fails the cache state is left unchanged (so a
`true` return does not imply the content was replaced). -/
theorem C9_amended_refresh_result (fsys : Fs) (c : Cache) (p : PathBuf) :
    ((Cache.refresh fsys c p).1 = true ↔
      (findE c.file_map p ≠ none
        ∧ (∃ e, fsys p = some e ∧ e.isFile = true)
        ∧ findE c.file_stats_map p ≠ none))
    ∧ (openInMemory fsys p = none → (Cache.refresh fsys c p).2 = c) := by
  have hfst : (Cache.refresh fsys c p).1 =
      ((findE c.file_map p).isSome &&
        (match fsys p with
         | some e => e.isFile && (findE c.file_stats_map p).isSome
         | none => false)) := by
    unfold Cache.refresh
    split
    · rename_i hc
      split
      · rw [hc]
      · rw [hc]
    · rename_i hc
      simp only [Bool.not_eq_true] at hc
      rw [hc]
  constructor
  · rw [hfst]
    cases he : fsys p with
    | none =>
      simp only [Bool.and_eq_true, Option.isSome_iff_ne_none]
      constructor
      · intro h
        cases h.2
      · intro h
        obtain ⟨e, he1, _⟩ := h.2.1
        cases he1
    | some e =>
      simp only [Bool.and_eq_true, Option.isSome_iff_ne_none]
      constructor
      · intro h
        exact ⟨h.1, ⟨e, rfl, h.2.1⟩, h.2.2⟩
      · intro h
        obtain ⟨h1, ⟨e1, he1, hif⟩, h3⟩ := h
        cases he1
        exact ⟨h1, hif, h3⟩
  · intro hoi
    unfold Cache.refresh
    split
    · rw [hoi]
    · rfl

/-- C9 witness: at the concrete counterexample state the amended
characterization yields `true` with an unchanged cache. -/
theorem C9_amended_refresh_result_witness :
    (Cache.refresh fsC9b cC9 1).1 = true ∧ (Cache.refresh fsC9b cC9 1).2 = cC9 :=
  ⟨(C9_amended_refresh_result fsC9b cC9 1).1.mpr
      ⟨by decide, ⟨⟨7, true, false, 8⟩, rfl, rfl⟩, by decide⟩,
    (C9_amended_refresh_result fsC9b cC9 1).2 rfl⟩

/-! C2 witness artifacts. -/

/-- A priority function depending only on the access count. -/
def pfAcc : Nat → Nat → Nat := fun a _ => a

/-- A full 10-byte cache holding one 10-byte entry with priority 1. -/
def cC2 : Cache := ⟨10, 0, usizeMax, pfAcc, [(2, ⟨10, 7⟩)], [(2, ⟨10, 1, 1⟩)], []⟩

/-- Snapshot: path 1 is a 10-byte regular file whose metadata is readable
but which cannot be opened. -/
def fsC2 : Fs := fun p => if p = 1 then some ⟨10, true, false, 3⟩ else none

/-- The state after the eviction inside `try_insert fsC2 cC2 1` removed
entry 2, before the failed read triggers the rollback. -/
def cC2mid : Cache := ⟨10, 0, usizeMax, pfAcc, [], [(1, ⟨10, 1, 1⟩)], [(1, 1)]⟩

/-- C2 witness: the concrete rollback run; entry 2 is restored and
`used_bytes` is back to 10. -/
theorem C2_rollback_restores_witness :
    tryInsert fsC2 cC2 1 = .err .InvalidPath (rollback cC2mid [(2, ⟨10, 7⟩)])
    ∧ findE (rollback cC2mid [(2, ⟨10, 7⟩)]).file_map 2 = findE cC2.file_map 2
    ∧ usedBytes (rollback cC2mid [(2, ⟨10, 7⟩)]) = usedBytes cC2 := by
  obtain ⟨h1, h2, h3⟩ := C2_rollback_restores fsC2 cC2 1 ⟨10, true, false, 3⟩
    (by decide) rfl rfl rfl (by decide) (by decide) (by decide) [(2, ⟨10, 7⟩)] cC2mid rfl
  exact ⟨h1, h2 2, h3⟩

/-! C4: how the stored priority is derived. -/

/-- The invariant that actually governs the stats table: every stored
priority equals the priority function applied to the record's own
(frozen) `access_count` and its current `size`. -/
def PrioInv (pf : Nat → Nat → Nat) (c : Cache) : Prop :=
  ∀ q st, findE c.file_stats_map q = some st →
    st.priority = pf st.access_count st.size

theorem findE_updateStats_ne (fsys : Fs) (c : Cache) {p q : PathBuf} (h : p ≠ q) :
    findE (updateStats fsys c p).file_stats_map q = findE c.file_stats_map q := by
  simp only [updateStats, findE_insertE]
  rw [if_neg h]

theorem updateStats_self_record (fsys : Fs) (c : Cache) (p : PathBuf) :
    ∀ st, findE (updateStats fsys c p).file_stats_map p = some st →
      st.priority = c.priority_function st.access_count st.size := by
  intro st h
  simp only [updateStats, findE_insertE] at h
  rw [if_pos trivial] at h
  cases h
  rfl

theorem prioInv_updateStats {pf : Nat → Nat → Nat} {fsys : Fs} {c : Cache} {p : PathBuf}
    (hpf : c.priority_function = pf) (h : PrioInv pf c) :
    PrioInv pf (updateStats fsys c p) := by
  intro q st hq
  by_cases hpq : p = q
  · subst hpq
    rw [← hpf]
    exact updateStats_self_record fsys c p st hq
  · rw [findE_updateStats_ne fsys c hpq] at hq
    exact h q st hq

theorem prioInv_postStats {pf : Nat → Nat → Nat} {fsys : Fs} {c : Cache} {p : PathBuf}
    (hpf : c.priority_function = pf) (h : PrioInv pf c) :
    PrioInv pf (postStats fsys c p) :=
  prioInv_updateStats hpf h

theorem tryInsert_stats_from {fsys : Fs} {c : Cache} {p : PathBuf} :
    ∀ {c' : Cache}, (tryInsert fsys c p).stateOf = some c' →
    ∀ q st, findE c'.file_stats_map q = some st →
      findE (postStats fsys c p).file_stats_map q = some st
      ∨ findE c.file_stats_map q = some st := by
  intro c' h q st
  cases he : fsys p with
  | none =>
    rw [tryInsert_eq_err he] at h
    simp only [TIOutcome.stateOf] at h
    cases h
    intro hq
    exact Or.inr hq
  | some e =>
    rw [tryInsert_eq_body he] at h
    unfold tryInsertBody at h
    split at h
    · split at h
      all_goals
        simp only [TIOutcome.stateOf] at h
        cases h
        intro hq
        exact Or.inl hq
    · split at h
      · split at h
        all_goals
          simp only [TIOutcome.stateOf] at h
          cases h
          intro hq
          exact Or.inl hq
      · split at h
        · rename_i removed c3 hmk
          obtain ⟨vs, hsel, hcom⟩ := makeRoom_ok hmk
          have cstats := (commitRemovals_spec hcom).2.2.1
          split at h
          · simp only [TIOutcome.stateOf] at h
            cases h
            intro hq
            have hq3 : findE c3.file_stats_map q = some st := hq
            rw [cstats q] at hq3
            by_cases hmem : q ∈ vs.map Prod.fst
            · rw [if_pos hmem] at hq3
              cases hq3
            · rw [if_neg hmem] at hq3
              exact Or.inl hq3
          · simp only [TIOutcome.stateOf] at h
            cases h
            intro hq
            have hq3 : findE c3.file_stats_map q = some st := hq
            rw [cstats q] at hq3
            by_cases hmem : q ∈ vs.map Prod.fst
            · rw [if_pos hmem] at hq3
              cases hq3
            · rw [if_neg hmem] at hq3
              exact Or.inl hq3
        · split at h
          all_goals
            simp only [TIOutcome.stateOf] at h
            cases h
            intro hq
            exact Or.inl hq
        · simp only [TIOutcome.stateOf] at h
          cases h

theorem tryInsert_config {fsys : Fs} {c : Cache} {p : PathBuf} :
    ∀ {c' : Cache}, (tryInsert fsys c p).stateOf = some c' → sameConfig c c' := by
  intro c' h
  cases he : fsys p with
  | none =>
    rw [tryInsert_eq_err he] at h
    simp only [TIOutcome.stateOf] at h
    cases h
    exact sameConfig_refl c
  | some e =>
    rw [tryInsert_eq_body he] at h
    unfold tryInsertBody at h
    split at h
    · split at h
      all_goals
        simp only [TIOutcome.stateOf] at h
        cases h
        exact sameConfig_postStats fsys c p
    · split at h
      · split at h
        · simp only [TIOutcome.stateOf] at h
          cases h
          exact sameConfig_trans (sameConfig_postStats fsys c p) ⟨rfl, rfl, rfl, rfl⟩
        · simp only [TIOutcome.stateOf] at h
          cases h
          exact sameConfig_postStats fsys c p
      · split at h
        · rename_i removed c3 hmk
          obtain ⟨vs, hsel, hcom⟩ := makeRoom_ok hmk
          have ccfg := (commitRemovals_spec hcom).2.2.2.2.1
          split at h
          all_goals
            simp only [TIOutcome.stateOf] at h
            cases h
            exact sameConfig_trans (sameConfig_postStats fsys c p)
              (sameConfig_trans ccfg ⟨rfl, rfl, rfl, rfl⟩)
        · split at h
          all_goals
            simp only [TIOutcome.stateOf] at h
            cases h
            exact sameConfig_postStats fsys c p
        · simp only [TIOutcome.stateOf] at h
          cases h

theorem sameConfig_refresh (fsys : Fs) (c : Cache) (p : PathBuf) :
    sameConfig c (Cache.refresh fsys c p).2 := by
  unfold Cache.refresh
  split
  · split
    · exact ⟨rfl, rfl, rfl, rfl⟩
    · exact sameConfig_refl c
  · exact sameConfig_refl c

theorem refresh_prioInv {pf : Nat → Nat → Nat} {fsys : Fs} {c : Cache} {p : PathBuf}
    (hpf : c.priority_function = pf) (h : PrioInv pf c) :
    PrioInv pf (Cache.refresh fsys c p).2 := by
  unfold Cache.refresh
  split
  · split
    · exact prioInv_updateStats hpf h
    · exact h
  · exact h

theorem remove_prioInv {pf : Nat → Nat → Nat} {c : Cache} {p : PathBuf}
    (h : PrioInv pf c) : PrioInv pf (Cache.remove c p) := by
  intro q st hq
  rw [show (Cache.remove c p).file_stats_map = eraseE c.file_stats_map p from rfl,
    findE_eraseE] at hq
  by_cases hpq : p = q
  · rw [if_pos hpq] at hq
    cases hq
  · rw [if_neg hpq] at hq
    exact h q st hq

theorem tryInsert_prioInv {pf : Nat → Nat → Nat} {fsys : Fs} {c : Cache} {p : PathBuf}
    (hpf : c.priority_function = pf) (h : PrioInv pf c) :
    ∀ {c' : Cache}, (tryInsert fsys c p).stateOf = some c' → PrioInv pf c' := by
  intro c' hst q st hq
  cases tryInsert_stats_from hst q st hq with
  | inl h2 => exact prioInv_postStats hpf h q st h2
  | inr h2 => exact h q st h2

theorem runOp_prioInv {pf : Nat → Nat → Nat} {fsys : Fs} {c : Cache} {o : Op} {c' : Cache}
    (hpf : c.priority_function = pf) (h : PrioInv pf c)
    (hrun : runOp fsys c o = some c') :
    PrioInv pf c' ∧ c'.priority_function = pf := by
  cases o with
  | get p =>
    simp only [runOp] at hrun
    cases hg : Cache.get fsys c p with
    | panic => rw [hg] at hrun; cases hrun
    | ret r c1 =>
      rw [hg] at hrun
      cases hrun
      unfold Cache.get at hg
      cases hp : findE c.file_map p with
      | some f =>
        rw [hp] at hg
        cases hg
        exact ⟨prioInv_updateStats hpf h, hpf⟩
      | none =>
        rw [hp] at hg
        have hso : (tryInsert fsys c p).stateOf = some c' := by
          cases hti : tryInsert fsys c p with
          | ok r1 d1 => rw [hti] at hg; cases hg; rfl
          | err e1 d1 => rw [hti] at hg; cases hg; rfl
          | panic => rw [hti] at hg; cases hg
        refine ⟨tryInsert_prioInv hpf h hso, ?_⟩
        rw [(tryInsert_config hso).2.2.2, hpf]
  | refresh p =>
    simp only [runOp] at hrun
    cases hrun
    refine ⟨refresh_prioInv hpf h, ?_⟩
    rw [(sameConfig_refresh fsys c p).2.2.2, hpf]
  | remove p =>
    simp only [runOp] at hrun
    cases hrun
    exact ⟨remove_prioInv h, hpf⟩

theorem runOps_prioInv {pf : Nat → Nat → Nat} :
    ∀ {ops : List (Fs × Op)} {c c' : Cache},
    c.priority_function = pf → PrioInv pf c →
    runOps c ops = some c' → PrioInv pf c' := by
  intro ops
  induction ops with
  | nil =>
    intro c c' _ h hrun
    cases hrun
    exact h
  | cons x rest ih =>
    intro c c' hpf h hrun
    obtain ⟨fsys, o⟩ := x
    unfold runOps at hrun
    cases h1 : runOp fsys c o with
    | none => rw [h1] at hrun; cases hrun
    | some c1 =>
      rw [h1] at hrun
      obtain ⟨hinv1, hpf1⟩ := runOp_prioInv hpf h h1
      exact ih hpf1 hinv1 hrun

/-- Snapshot for C4: path 1 is a 4-byte readable regular file. -/
def fsC4 : Fs := fun p => if p = 1 then some ⟨4, true, true, 0⟩ else none

/-- State after two `get`s of path 1 in a fresh 10-byte cache: the access
counter is 2, but the stats record still carries the access count 1 it
was created with, and its priority was computed from that frozen count. -/
def cX4 : Cache := ⟨10, 0, usizeMax, pfMul, [(1, ⟨4, 0⟩)], [(1, ⟨4, 1, 4⟩)], [(1, 2)]⟩

/-- C4 counterexample: after a second hit the access counter for key 1
is 2, yet the stored priority is `pf 1 4 = 4`, not
`pf (current access count) (size) = pf 2 4 = 8`: `update_stats` never
refreshes the `access_count` stored inside an existing `FileStats`, so
the priority is computed from a stale access count. -/
theorem C4_counterexample :
    runOps (Cache.new 10 pfMul) [(fsC4, .get 1), (fsC4, .get 1)] = some cX4
    ∧ findE cX4.access_count_map 1 = some 2
    ∧ findE cX4.file_stats_map 1 = some ⟨4, 1, 4⟩
    ∧ (⟨4, 1, 4⟩ : FileStats).priority ≠ pfMul 2 4 :=
  ⟨rfl, rfl, rfl, by decide⟩

/-- C4 (amended): after every completed operation, every stored
`FileStats` record satisfies
`priority = PriorityFunction(record.access_count, record.size)` — the
priority is freshly derived from the record's own stored access count
(frozen at record creation) and its current size, not from the live
AccessCounter value. -/
theorem C4_amended_priority_formula (limit : Nat) (pf : Nat → Nat → Nat)
    (ops : List (Fs × Op)) (c' : Cache)
    (hrun : runOps (Cache.new limit pf) ops = some c') :
    ∀ q st, findE c'.file_stats_map q = some st →
      st.priority = pf st.access_count st.size := by
  refine runOps_prioInv rfl ?_ hrun
  intro q st hq
  simp [Cache.new, findE] at hq

/-- C4 witness: the two-get run; the stored record `⟨4, 1, 4⟩` satisfies
the amended formula with its frozen access count. -/
theorem C4_amended_priority_formula_witness :
    (⟨4, 1, 4⟩ : FileStats).priority =
      pfMul (⟨4, 1, 4⟩ : FileStats).access_count (⟨4, 1, 4⟩ : FileStats).size :=
  C4_amended_priority_formula 10 pfMul [(fsC4, .get 1), (fsC4, .get 1)] cX4 rfl
    1 ⟨4, 1, 4⟩ rfl

/-! C5: relation between the stats table keys and the entry store keys. -/

/-- Every cached key has a stats record (one direction of the claimed
key-set equality). -/
def SubsetInv (c : Cache) : Prop :=
  ∀ q, findE c.file_map q ≠ none → findE c.file_stats_map q ≠ none

theorem findE_updateStats_self (fsys : Fs) (c : Cache) (p : PathBuf) :
    findE (updateStats fsys c p).file_stats_map p ≠ none := by
  simp only [updateStats, findE_insertE]
  rw [if_pos trivial]
  simp

theorem subsetInv_updateStats {fsys : Fs} {c : Cache} {p : PathBuf}
    (h : SubsetInv c) : SubsetInv (updateStats fsys c p) := by
  intro q hq
  by_cases hpq : p = q
  · subst hpq
    exact findE_updateStats_self fsys c p
  · rw [findE_updateStats_ne fsys c hpq]
    exact h q hq

theorem subsetInv_postStats {fsys : Fs} {c : Cache} {p : PathBuf}
    (h : SubsetInv c) : SubsetInv (postStats fsys c p) :=
  subsetInv_updateStats (c := incrementAccessCount c p) h

theorem tryInsert_subsetInv {fsys : Fs} {c : Cache} {p : PathBuf}
    (hall : ∀ q e, fsys q = some e → e.canOpen = true)
    (hp : findE c.file_map p = none) (h : SubsetInv c) :
    ∀ {c' : Cache}, (tryInsert fsys c p).stateOf = some c' → SubsetInv c' := by
  intro c' hst
  have h2 : SubsetInv (postStats fsys c p) := subsetInv_postStats h
  cases he : fsys p with
  | none =>
    rw [tryInsert_eq_err he] at hst
    simp only [TIOutcome.stateOf] at hst
    cases hst
    exact h
  | some e =>
    have hco : e.canOpen = true := hall p e he
    rw [tryInsert_eq_body he] at hst
    unfold tryInsertBody at hst
    split at hst
    · split at hst
      all_goals
        simp only [TIOutcome.stateOf] at hst
        cases hst
        exact h2
    · split at hst
      · split at hst
        · rename_i f hopen
          simp only [TIOutcome.stateOf] at hst
          cases hst
          intro q hq
          by_cases hpq : p = q
          · subst hpq
            exact findE_updateStats_self fsys (incrementAccessCount c p) p
          · have hq2 : findE (postStats fsys c p).file_map q ≠ none := by
              rw [show (insertFile (postStats fsys c p) p f).file_map
                  = insertE (postStats fsys c p).file_map p f from rfl,
                findE_insertE, if_neg hpq] at hq
              exact hq
            exact h2 q hq2
        · simp only [TIOutcome.stateOf] at hst
          cases hst
          exact h2
      · split at hst
        · rename_i removed c3 hmk
          obtain ⟨vs, hsel, hcom⟩ := makeRoom_ok hmk
          obtain ⟨cfst, cfind, cstats, _, _, crem, _, _, _⟩ := commitRemovals_spec hcom
          split at hst
          · rename_i f hopen
            simp only [TIOutcome.stateOf] at hst
            cases hst
            intro q hq
            by_cases hpq : p = q
            · subst hpq
              have hpm : p ∉ vs.map Prod.fst := by
                intro hmem
                rw [← cfst] at hmem
                obtain ⟨kv, hkv, hfst⟩ := List.mem_map.mp hmem
                have := crem kv hkv
                rw [hfst, show findE (postStats fsys c p).file_map p
                    = findE c.file_map p from rfl, hp] at this
                cases this
              rw [show (insertFile c3 p f).file_stats_map = c3.file_stats_map from rfl,
                cstats p, if_neg hpm]
              exact findE_updateStats_self fsys (incrementAccessCount c p) p
            · have hq3 : findE c3.file_map q ≠ none := by
                rw [show (insertFile c3 p f).file_map = insertE c3.file_map p f from rfl,
                  findE_insertE, if_neg hpq] at hq
                exact hq
              have hqm : q ∉ vs.map Prod.fst := by
                intro hmem
                rw [cfind q, if_pos (cfst ▸ hmem)] at hq3
                exact hq3 rfl
              have hq2 : findE (postStats fsys c p).file_map q ≠ none := by
                rw [cfind q, if_neg (cfst ▸ hqm)] at hq3
                exact hq3
              rw [show (insertFile c3 p f).file_stats_map = c3.file_stats_map from rfl,
                cstats q, if_neg hqm]
              exact h2 q hq2
          · rename_i hopen
            rw [openInMemory_of_canOpen he hco] at hopen
            cases hopen
        · split at hst
          all_goals
            simp only [TIOutcome.stateOf] at hst
            cases hst
            exact h2
        · simp only [TIOutcome.stateOf] at hst
          cases hst

theorem refresh_subsetInv {fsys : Fs} {c : Cache} {p : PathBuf}
    (h : SubsetInv c) : SubsetInv (Cache.refresh fsys c p).2 := by
  unfold Cache.refresh
  split
  · split
    · rename_i f hopen
      intro q hq
      by_cases hpq : p = q
      · subst hpq
        exact findE_updateStats_self fsys (insertFile c p f) p
      · rw [findE_updateStats_ne fsys (insertFile c p f) hpq]
        have hq2 : findE c.file_map q ≠ none := by
          rw [show (updateStats fsys (insertFile c p f) p).file_map
              = insertE c.file_map p f from rfl, findE_insertE, if_neg hpq] at hq
          exact hq
        exact h q hq2
    · exact h
  · exact h

theorem remove_subsetInv {c : Cache} {p : PathBuf}
    (h : SubsetInv c) : SubsetInv (Cache.remove c p) := by
  intro q hq
  rw [show (Cache.remove c p).file_map = eraseE c.file_map p from rfl,
    findE_eraseE] at hq
  rw [show (Cache.remove c p).file_stats_map = eraseE c.file_stats_map p from rfl,
    findE_eraseE]
  by_cases hpq : p = q
  · rw [if_pos hpq] at hq
    exact absurd rfl hq
  · rw [if_neg hpq] at hq
    rw [if_neg hpq]
    exact h q hq

theorem runOp_subsetInv {fsys : Fs} {c : Cache} {o : Op} {c' : Cache}
    (hall : ∀ q e, fsys q = some e → e.canOpen = true)
    (h : SubsetInv c) (hrun : runOp fsys c o = some c') : SubsetInv c' := by
  cases o with
  | get p =>
    simp only [runOp] at hrun
    cases hg : Cache.get fsys c p with
    | panic => rw [hg] at hrun; cases hrun
    | ret r c1 =>
      rw [hg] at hrun
      cases hrun
      unfold Cache.get at hg
      cases hp : findE c.file_map p with
      | some f =>
        rw [hp] at hg
        cases hg
        exact subsetInv_updateStats (c := incrementAccessCount c p) h
      | none =>
        rw [hp] at hg
        have hso : (tryInsert fsys c p).stateOf = some c' := by
          cases hti : tryInsert fsys c p with
          | ok r1 d1 => rw [hti] at hg; cases hg; rfl
          | err e1 d1 => rw [hti] at hg; cases hg; rfl
          | panic => rw [hti] at hg; cases hg
        exact tryInsert_subsetInv hall hp h hso
  | refresh p =>
    simp only [runOp] at hrun
    cases hrun
    exact refresh_subsetInv h
  | remove p =>
    simp only [runOp] at hrun
    cases hrun
    exact remove_subsetInv h

theorem runOps_subsetInv :
    ∀ {ops : List (Fs × Op)} {c c' : Cache},
    (∀ x ∈ ops, ∀ q e, x.1 q = some e → e.canOpen = true) →
    SubsetInv c → runOps c ops = some c' → SubsetInv c' := by
  intro ops
  induction ops with
  | nil =>
    intro c c' _ h hrun
    cases hrun
    exact h
  | cons x rest ih =>
    intro c c' hall h hrun
    obtain ⟨fsys, o⟩ := x
    unfold runOps at hrun
    cases h1 : runOp fsys c o with
    | none => rw [h1] at hrun; cases hrun
    | some c1 =>
      rw [h1] at hrun
      exact ih (fun y hy => hall y (by simp [hy]))
        (runOp_subsetInv (hall (fsys, o) (by simp)) h h1) hrun

/-- Snapshot for the C5 counterexample: path 1 is a 3-byte readable
regular file. -/
def fsC5 : Fs := fun p => if p = 1 then some ⟨3, true, true, 0⟩ else none

/-- State after a `get` of path 1 against a fresh 0-byte cache: the file
was served via passthrough (nothing cached), but `update_stats` left a
stats record for key 1. -/
def cX5 : Cache := ⟨0, 0, usizeMax, pfMul, [], [(1, ⟨3, 1, 3⟩)], [(1, 1)]⟩

/-- C5 counterexample: after a `try_insert` that ends in passthrough
(the 3-byte file cannot fit a 0-byte cache), the Stats Table holds a
record for key 1 while the Entry Store does not, so the key sets are not
equal after the operation completes. -/
theorem C5_counterexample :
    runOps (Cache.new 0 pfMul) [(fsC5, .get 1)] = some cX5
    ∧ findE cX5.file_stats_map 1 ≠ none
    ∧ findE cX5.file_map 1 = none :=
  ⟨rfl, by decide, rfl⟩

/-- C5 (amended): the key-set equality fails — a rejected or passthrough
`try_insert` leaves a dangling stats record for the candidate, and a
rollback re-inserts entries whose stats records were deleted.  What does
hold is the containment "Entry Store keys ⊆ Stats Table keys" after
every completed operation of a run in which every backing item that
exists can be opened (so no rollback ever happens). -/
theorem C5_amended_entry_keys_have_stats (limit : Nat) (pf : Nat → Nat → Nat)
    (ops : List (Fs × Op)) (c' : Cache)
    (hall : ∀ x ∈ ops, ∀ q e, x.1 q = some e → e.canOpen = true)
    (hrun : runOps (Cache.new limit pf) ops = some c') :
    ∀ q, findE c'.file_map q ≠ none → findE c'.file_stats_map q ≠ none := by
  refine runOps_subsetInv hall ?_ hrun
  intro q hq
  exact absurd rfl hq

/-- State for the C5 witness: the 5-byte file admitted into a fresh
10-byte cache. -/
def cC5w : Cache := ⟨10, 0, usizeMax, pfMul, [(1, ⟨5, 0⟩)], [(1, ⟨5, 1, 5⟩)], [(1, 1)]⟩

/-- C5 witness: in the all-openable one-get run the cached key 1 indeed
has a stats record. -/
theorem C5_amended_entry_keys_have_stats_witness :
    findE cC5w.file_stats_map 1 ≠ none := by
  have hall : ∀ x ∈ [((fsC1a, .get 1) : Fs × Op)], ∀ q e, x.1 q = some e →
      e.canOpen = true := by
    intro x hx q e hqe
    rw [List.mem_singleton] at hx
    subst hx
    simp only [fsC1a] at hqe
    split at hqe
    · cases hqe
      rfl
    · cases hqe
  exact C5_amended_entry_keys_have_stats 10 pfMul [(fsC1a, .get 1)] cC5w hall rfl
    1 (by decide)

/-! C8: behaviour of a cache whose size limit is 0. -/

/-- Snapshot for C8: path 1 is an empty (0-byte) readable regular file. -/
def fsC8 : Fs := fun p => if p = 1 then some ⟨0, true, true, 5⟩ else none

/-- State after a `get` of the 0-byte file against a fresh 0-byte cache:
the file was cached. -/
def cX8 : Cache := ⟨0, 0, usizeMax, pfMul, [(1, ⟨0, 5⟩)], [(1, ⟨0, 1, 0⟩)], [(1, 1)]⟩

/-- C8 counterexample: with `size_limit = 0` a `get` of an existing
0-byte item returns a cached-content handle, not a passthrough handle:
`required_space = 0` sends it down the eviction path, which trivially
succeeds with no victims, and the content is cached.  `used_bytes`
remains 0. -/
theorem C8_counterexample :
    Cache.get fsC8 (Cache.new 0 pfMul) 1 = .ret (some (.cached 1 ⟨0, 5⟩)) cX8
    ∧ usedBytes cX8 = 0 :=
  ⟨rfl, rfl⟩

theorem file_sizes_zero_of_usedBytes_zero {c : Cache} (h : usedBytes c = 0) :
    ∀ {q : PathBuf} {f : InMemoryFile}, findE c.file_map q = some f → f.size = 0 := by
  intro q f hf
  rw [usedBytes_eq_sizeSum] at h
  have hmem : (q, f) ∈ c.file_map := mem_of_findE_some hf
  have : f.size ∈ c.file_map.map (fun kv => kv.2.size) :=
    List.mem_map.mpr ⟨(q, f), hmem, rfl⟩
  exact List.sum_eq_zero_iff.mp h f.size this

/-- C8 (amended): from a fresh cache with `size_limit = 0`, after every
refresh-free run `used_bytes` is 0, and a `get` of a not-currently-cached
backing item of size > 0 never returns a cached-content handle: it
returns either nothing or a passthrough handle.  (A 0-byte item is the
exception: it is admitted and served from the cache, as the
counterexample shows, while `used_bytes` stays 0.) -/
theorem C8_amended_zero_limit (pf : Nat → Nat → Nat) (ops : List (Fs × Op))
    (c' : Cache) (hnr : ∀ x ∈ ops, Op.isRefresh x.2 = false)
    (hrun : runOps (Cache.new 0 pf) ops = some c') :
    usedBytes c' = 0
    ∧ (∀ (fsys : Fs) (p : PathBuf) (e : FsEntry), fsys p = some e → 0 < e.size →
        findE c'.file_map p = none →
        ∀ (r : Option ResponderFile) (c2 : Cache), Cache.get fsys c' p = .ret r c2 →
          r = none ∨ r = some (.fileSystem p)) := by
  have hWF0 : (keysOf (Cache.new 0 pf).file_map).Nodup := List.nodup_nil
  have hSI0 : SizeInv (Cache.new 0 pf) := by
    intro q f hq
    simp [Cache.new, findE] at hq
  have hU0 : usedBytes (Cache.new 0 pf) ≤ (Cache.new 0 pf).size_limit := by
    simp [Cache.new, usedBytes]
  obtain ⟨hWF, hSI, hU, hcfg⟩ := runOps_invariant hnr hWF0 hSI0 hU0 hrun
  have hused0 : usedBytes c' = 0 := Nat.le_zero.mp hU
  have hlim0 : c'.size_limit = 0 := hcfg.1
  have hmin0 : c'.min_file_size = 0 := hcfg.2.1
  refine ⟨hused0, ?_⟩
  intro fsys p e he hsz hp r c2 hget
  unfold Cache.get at hget
  rw [hp, tryInsert_eq_body he] at hget
  unfold tryInsertBody at hget
  by_cases hc1 : e.size > (postStats fsys c' p).max_file_size
      ∨ e.size < (postStats fsys c' p).min_file_size
  · rw [if_pos hc1] at hget
    cases hnf : openNamedFile fsys p with
    | some u =>
      rw [hnf] at hget
      cases hget
      exact Or.inr rfl
    | none =>
      rw [hnf] at hget
      cases hget
      exact Or.inl rfl
  · rw [if_neg hc1] at hget
    have hreq : requiredSpace (postStats fsys c' p) e.size = (e.size : Int) := by
      rw [requiredSpace_postStats, hlim0]
      have : usedBytes c' = 0 := hused0
      omega
    have hfit2 : ¬(requiredSpace (postStats fsys c' p) e.size < 0
        ∧ e.size < (postStats fsys c' p).size_limit) := by
      intro hand
      rw [hreq] at hand
      have := hand.1
      omega
    rw [if_neg hfit2] at hget
    have hall0 : ∀ kv ∈ (sortedPriorities (postStats fsys c' p)).reverse,
        (kv : PathBuf × FileStats).2.size = 0 := by
      intro kv hkv
      obtain ⟨hstats, hmem⟩ := mem_sortedPriorities (List.mem_reverse.mp hkv)
      have hne : findE c'.file_map kv.1 ≠ none :=
        fun h0 => ((findE_eq_none _ _).mp h0) hmem
      cases hf : findE c'.file_map kv.1 with
      | none => exact absurd hf hne
      | some f =>
        have hf0 : f.size = 0 := file_sizes_zero_of_usedBytes_zero hused0 hf
        have hkne : ¬ p = kv.1 := by
          intro hq
          rw [← hq, hp] at hf
          cases hf
        have heq : statsOrDefault (postStats fsys c' p) kv.1 = statsOrDefault c' kv.1 :=
          statsOrDefault_postStats_ne fsys c' hkne
        rw [hstats, heq]
        have := hSI kv.1 f hf
        omega
    have hreqpos : 0 < (requiredSpace (postStats fsys c' p) e.size).toNat := by
      rw [hreq]
      omega
    obtain ⟨err, herr⟩ := selectVictims_error_of_allzero hreqpos
      ((sortedPriorities (postStats fsys c' p)).reverse) 0 hall0
    have hmk : makeRoom (postStats fsys c' p)
        (requiredSpace (postStats fsys c' p) e.size).toNat
        (newFilePriority (postStats fsys c' p) p e.size) = .err err := by
      unfold makeRoom
      rw [herr]
    rw [hmk] at hget
    cases hnf : openNamedFile fsys p with
    | some u =>
      rw [hnf] at hget
      cases hget
      exact Or.inr rfl
    | none =>
      rw [hnf] at hget
      cases hget
      exact Or.inl rfl

/-! C6: ordering properties of the evicted set. -/

/-- A constant priority function, used to produce a priority tie. -/
def pfC6 : Nat → Nat → Nat := fun _ _ => 5

/-- A full 10-byte cache holding entry 2 with priority 5. -/
def cC6 : Cache := ⟨10, 0, usizeMax, pfC6, [(2, ⟨10, 0⟩)], [(2, ⟨10, 1, 5⟩)], []⟩

/-- Snapshot for C6: path 1 is a 10-byte readable regular file. -/
def fsC6 : Fs := fun p => if p = 1 then some ⟨10, true, true, 4⟩ else none

/-- State after the eviction of entry 2 during the admission of path 1. -/
def cC6mid : Cache := ⟨10, 0, usizeMax, pfC6, [], [(1, ⟨10, 1, 5⟩)], [(1, 1)]⟩

/-- C6 counterexample: during the admission of path 1 (which succeeds and
caches the file), `make_room_for_new_file` evicts entry 2 whose priority
score 5 equals `new_priority = 5` — the abort check is strict
(`priority_score_to_free > new_priority`), so an evicted entry need not
have a priority strictly lower than the admitted candidate's. -/
theorem C6_counterexample :
    newFilePriority (postStats fsC6 cC6 1) 1 10 = 5
    ∧ makeRoom (postStats fsC6 cC6 1)
        (requiredSpace (postStats fsC6 cC6 1) 10).toNat
        (newFilePriority (postStats fsC6 cC6 1) 1 10)
        = .ok [(2, ⟨10, 0⟩)] cC6mid
    ∧ (statsOrDefault (postStats fsC6 cC6 1) 2).priority = 5
    ∧ (∃ c', tryInsert fsC6 cC6 1 = .ok (.cached 1 ⟨10, 4⟩) c')
    ∧ ¬((statsOrDefault (postStats fsC6 cC6 1) 2).priority
        < newFilePriority (postStats fsC6 cC6 1) 1 10) :=
  ⟨rfl, rfl, rfl, ⟨_, rfl⟩, by decide⟩

/-- C6 (amended): for every successful `make_room_for_new_file`, every
evicted entry has a priority score less than or equal to (not strictly
below) that of every entry remaining in the store, and the sum of the
evicted priority scores is at most `new_priority`. -/
theorem C6_amended_eviction_order (c : Cache) (R N : Nat)
    (hWF : (keysOf c.file_map).Nodup)
    (removed : List (PathBuf × InMemoryFile)) (c' : Cache)
    (hmk : makeRoom c R N = .ok removed c') :
    ((removed.map (fun kv => (statsOrDefault c kv.1).priority)).sum ≤ N)
    ∧ (∀ kv ∈ removed, ∀ q f, findE c'.file_map q = some f →
        (statsOrDefault c kv.1).priority ≤ (statsOrDefault c q).priority) := by
  obtain ⟨vs, hsel, hcom⟩ := makeRoom_ok hmk
  obtain ⟨cfst, cfind, cstats, cacc, ccfg, crem, cnod, csum, ckeys⟩ :=
    commitRemovals_spec hcom
  obtain ⟨⟨rest, hpre⟩, hfreed, hprio⟩ := selectVictims_spec _ 0 0 hsel
  have hvstats : ∀ kv ∈ vs, kv.2 = statsOrDefault c kv.1 :=
    fun kv hkv => (victims_are_stats hsel kv hkv).1
  have hmapsums : removed.map (fun kv => (statsOrDefault c kv.1).priority)
      = vs.map (fun kv => kv.2.priority) := by
    have h1 : removed.map (fun kv => (statsOrDefault c kv.1).priority)
        = (removed.map Prod.fst).map (fun k => (statsOrDefault c k).priority) := by
      rw [List.map_map]
      rfl
    have h2 : vs.map (fun kv => kv.2.priority)
        = (vs.map Prod.fst).map (fun k => (statsOrDefault c k).priority) := by
      rw [List.map_map]
      apply List.map_congr_left
      intro kv hkv
      simp only [Function.comp]
      rw [hvstats kv hkv]
    rw [h1, h2, cfst]
  constructor
  · rw [hmapsums]
    cases hprio with
    | inl h1 => omega
    | inr h1 =>
      subst h1
      simp
  · intro kv hkv q f hq
    -- the victim's selection pair
    have hkmem : kv.1 ∈ vs.map Prod.fst := by
      rw [← cfst]
      exact List.mem_map.mpr ⟨kv, hkv, rfl⟩
    obtain ⟨kvv, hkvv, hkvfst⟩ := List.mem_map.mp hkmem
    -- the remaining entry's selection pair
    have hqm : q ∉ vs.map Prod.fst := by
      intro hmem
      rw [cfind q, if_pos (cfst ▸ hmem)] at hq
      cases hq
    have hqc : findE c.file_map q = some f := by
      rw [cfind q, if_neg (cfst ▸ hqm)] at hq
      exact hq
    have hqkeys : q ∈ keysOf c.file_map := by
      by_contra hcon
      rw [← findE_eq_none] at hcon
      rw [hcon] at hqc
      cases hqc
    have hqasc : (q, statsOrDefault c q) ∈ (sortedPriorities c).reverse :=
      List.mem_reverse.mpr (sortedPriorities_key_mem hqkeys)
    have hqrest : (q, statsOrDefault c q) ∈ rest := by
      rw [hpre] at hqasc
      cases List.mem_append.mp hqasc with
      | inl hin =>
        exact absurd (List.mem_map.mpr ⟨_, hin, rfl⟩) hqm
      | inr hin => exact hin
    have hpw := sortedPriorities_reverse_pairwise c
    rw [hpre] at hpw
    have hle := (List.pairwise_append.mp hpw).2.2 kvv hkvv _ hqrest
    have : kvv.2 = statsOrDefault c kv.1 := by
      rw [hvstats kvv hkvv, hkvfst]
    rw [← this]
    exact hle

/-- A cache with a low-priority entry 2 and a high-priority entry 3. -/
def cC6w : Cache :=
  ⟨10, 0, usizeMax, pfAcc, [(2, ⟨5, 0⟩), (3, ⟨6, 0⟩)],
    [(2, ⟨5, 1, 1⟩), (3, ⟨6, 9, 9⟩)], []⟩

/-- The state after evicting entry 2 from `cC6w`. -/
def cC6wmid : Cache :=
  ⟨10, 0, usizeMax, pfAcc, [(3, ⟨6, 0⟩)], [(3, ⟨6, 9, 9⟩)], []⟩

/-- C6 witness: evicting entry 2 (priority 1) to free 5 bytes for a
candidate of priority 4 keeps entry 3 (priority 9); the evicted priority
sum 1 is at most 4 and 1 ≤ 9. -/
theorem C6_amended_eviction_order_witness :
    (([(2, (⟨5, 0⟩ : InMemoryFile))].map
        (fun kv => (statsOrDefault cC6w kv.1).priority)).sum ≤ 4)
    ∧ (statsOrDefault cC6w 2).priority ≤ (statsOrDefault cC6w 3).priority := by
  obtain ⟨h1, h2⟩ := C6_amended_eviction_order cC6w 5 4 (by decide)
    [(2, ⟨5, 0⟩)] cC6wmid rfl
  exact ⟨h1, h2 (2, ⟨5, 0⟩) (by decide) 3 ⟨6, 0⟩ rfl⟩

/-- State after a second passthrough `get` of path 1 against `cX5`. -/
def cX5b : Cache := ⟨0, 0, usizeMax, pfMul, [], [(1, ⟨3, 1, 3⟩)], [(1, 2)]⟩

/-- C8 witness: the passthrough run against the 0-byte cache keeps
`used_bytes = 0`, and a further `get` of the existing 3-byte item yields
a passthrough handle. -/
theorem C8_amended_zero_limit_witness :
    usedBytes cX5 = 0
    ∧ (some (ResponderFile.fileSystem 1) = none
        ∨ some (ResponderFile.fileSystem 1) = some (.fileSystem 1)) := by
  obtain ⟨h1, h2⟩ := C8_amended_zero_limit pfMul [(fsC5, .get 1)] cX5 (by decide) rfl
  exact ⟨h1, h2 fsC5 1 ⟨3, true, true, 0⟩ rfl (by decide) rfl
    (some (.fileSystem 1)) cX5b rfl⟩
